import Mathlib

/-!
Formal model of the sourcetrail client library core: the `NameHierarchy`
text encoding (`src/types.rs`) and the incremental graph construction and
validated record builders (`src/api.rs`), translated as a shallow embedding.

Text is modelled as `List Char` (the Rust code only ever slices at pattern
match boundaries, which are character aligned, so byte indices and character
indices agree at every slicing point).  The SQLite backing store is modelled
as an explicit record of table contents together with the two autoincrement
counters the code relies on (the `element` table and the `source_location`
table).  Fallible operations return `Except`; operations that mutate the
store thread the state explicitly and keep the partially written state on
error, exactly as the `&mut self` methods do.
-/

/-- Text, modelled as a list of characters. -/
abbrev Str := List Char

/-- The two-character control marker `'\t' :: [x]`.  The format uses
`markSeq 'm'` (`META_DELIMITER`), `markSeq 'n'` (`NAME_DELIMITER`),
`markSeq 's'` (`PART_DELIMITER`) and `markSeq 'p'` (`SIGNATURE_DELIMITER`). -/
def markSeq (x : Char) : Str := ['\t', x]

/-- `NameHierarchy::META_DELIMITER`, the literal `"\tm"`. -/
def tmMark : Str := markSeq 'm'

/-- `NameHierarchy::NAME_DELIMITER`, the literal `"\tn"`. -/
def tnMark : Str := markSeq 'n'

/-- `NameHierarchy::PART_DELIMITER`, the literal `"\ts"`. -/
def tsMark : Str := markSeq 's'

/-- `NameHierarchy::SIGNATURE_DELIMITER`, the literal `"\tp"`. -/
def tpMark : Str := markSeq 'p'

/-- `NameHierarchy::NAME_DELIMITER_FILE`, the literal `"/"`. -/
def fileDelim : Str := ['/']

/-- `NameHierarchy::NAME_DELIMITER_CXX`, the literal `"::"`. -/
def cxxDelim : Str := [':', ':']

/-- `NameHierarchy::NAME_DELIMITER_UNKNOWN`, the literal `"@"`. -/
def unknownDelim : Str := ['@']

/-- One segment of a qualified name (`NameElement` in `src/types.rs`):
`prefix`, `name` and `postfix`, each optional.  The Rust field names
`prefix`/`postfix` are Lean keywords, so the fields are called `pre`,
`name` and `post` here. -/
structure NameElement where
  pre : Option Str
  name : Option Str
  post : Option Str
deriving DecidableEq

/-- An ordered sequence of `NameElement`s with a delimiter
(`NameHierarchy` in `src/types.rs`). -/
structure NameHierarchy where
  delimiter : Str
  elements : List NameElement
deriving DecidableEq

/-- The error taxonomy (`SourcetrailError` in `src/api.rs`), restricted to
the variants reachable in the modelled core.  The `anyhow`-message wrappers
(`Builder`, `SourceLocationBuilder`, `UnsolvedSymbolBuilder`,
`FileRecorder`) are modelled with their message strings.  `PanicEmpty`
models the `ids.last().expect("at least one id")` panic in `record_symbol`,
which is unreachable for hierarchies satisfying the non-empty invariant. -/
inductive Err where
  | Deserialize
  | Serialize
  | EmptyNameHierarchy
  | InvalidSourceRange
  | ParentNotFound (id : Int)
  | FileNotFound (id : Int)
  | Builder (msg : String)
  | SourceLocationMsg (msg : String)
  | UnsolvedSymbolMsg (msg : String)
  | ErrorLocationMsg (msg : String)
  | FileRecorderMsg (msg : String)
  | PanicEmpty
deriving DecidableEq

deriving instance DecidableEq for Except

/-- `NameHierarchy::new`: constructing with zero elements fails. -/
def NameHierarchy.new (delimiter : Str) (elements : List NameElement) :
    Except Err NameHierarchy :=
  if elements.isEmpty then .error .EmptyNameHierarchy
  else .ok ⟨delimiter, elements⟩

/-- `NameHierarchy::size`. -/
def NameHierarchy.size (h : NameHierarchy) : Nat := h.elements.length

/-- The per-element encoding from `NameHierarchy::serialize_range`:
`format!("{}\ts{}\tp{}", name, prefix, postfix)` with unset fields
defaulting to empty text (`unwrap_or_default`). -/
def serializeElement (e : NameElement) : Str :=
  e.name.getD [] ++ tsMark ++ e.pre.getD [] ++ tpMark ++ e.post.getD []

/-- Rust's `[String]::join(sep)`: pieces joined with the separator. -/
def joinSep (sep : Str) : List Str → Str
  | [] => []
  | [p] => p
  | p :: q :: rest => p ++ sep ++ joinSep sep (q :: rest)

/-- `NameHierarchy::serialize_range`: fails when `start >= end` or
`end > elements.len()`, otherwise yields
`DELIMITER ++ "\tm" ++` the elements of `[start, end)` each encoded and
joined with `"\tn"`.  (`end` is a Lean keyword, so the parameter is named
`stop`.) -/
def NameHierarchy.serialize_range (h : NameHierarchy) (start stop : Nat) :
    Except Err Str :=
  if start ≥ stop ∨ stop > h.elements.length then .error .Serialize
  else .ok (h.delimiter ++ tmMark ++
    joinSep tnMark (((h.elements.drop start).take (stop - start)).map serializeElement))

/-- `NameHierarchy::serialize_name` = `serialize_range(0, size)`. -/
def NameHierarchy.serialize_name (h : NameHierarchy) : Except Err Str :=
  h.serialize_range 0 h.size

/-- Rust's `str::find` specialised to the two-character patterns
`"\t?"` used by the format: index of the leftmost occurrence. -/
def findMark (x : Char) : Str → Option Nat
  | [] => none
  | [_] => none
  | c :: d :: rest =>
    if c = '\t' ∧ d = x then some 0
    else (findMark x (d :: rest)).map (· + 1)

/-- Rust's `str::split` specialised to the two-character patterns
`"\t?"` used by the format: pieces between leftmost non-overlapping
occurrences of the pattern. -/
def splitOnMark (x : Char) : Str → List Str
  | [] => [[]]
  | [c] => [[c]]
  | c :: d :: rest =>
    if c = '\t' ∧ d = x then [] :: splitOnMark x rest
    else
      match splitOnMark x (d :: rest) with
      | [] => [[c]]
      | p :: ps => (c :: p) :: ps

/-- The per-chunk half of `NameHierarchy::deserialize_name`: split the
chunk on `"\ts"` (at least two segments required, extra segments ignored),
then split the second segment on `"\tp"` (again at least two parts,
extras ignored); all three produced fields are set. -/
def decodeElement (part : Str) : Except Err NameElement :=
  let segments := splitOnMark 's' part
  if segments.length < 2 then .error .Deserialize
  else
    let name := segments.getD 0 []
    let sigpost := splitOnMark 'p' (segments.getD 1 [])
    if sigpost.length < 2 then .error .Deserialize
    else .ok ⟨some (sigpost.getD 0 []), some name, some (sigpost.getD 1 [])⟩

/-- The chunk loop of `NameHierarchy::deserialize_name`: decode every
chunk, propagating the first failure. -/
def decodeElements : List Str → Except Err (List NameElement)
  | [] => .ok []
  | p :: ps =>
    match decodeElement p with
    | .error e => .error e
    | .ok el =>
      match decodeElements ps with
      | .error e => .error e
      | .ok els => .ok (el :: els)

/-- `NameHierarchy::deserialize_name`: find the first `"\tm"` (failure if
absent); the text before it is the delimiter; the text after it is split
on `"\tn"` into chunks, each decoded by `decodeElement`; the result must
satisfy the non-empty invariant of `NameHierarchy::new`. -/
def NameHierarchy.deserialize_name (s : Str) : Except Err NameHierarchy :=
  match findMark 'm' s with
  | none => .error .Deserialize
  | some idx =>
    match decodeElements (splitOnMark 'n' (s.drop (idx + 2))) with
    | .error e => .error e
    | .ok elements => NameHierarchy.new (s.take idx) elements

/-! ## The persistence backend state

Rows of the tables touched by the modelled operations, named after the
`Repr` types of `src/types.rs`, with the suffix `Row` to keep them apart
from the record builders. -/

/-- The fixed node tag set (`NodeType` in `src/types.rs`). -/
inductive NodeType where
  | NodeSymbol | NodeType | NodeBuiltinType | NodeModule | NodeNamespace
  | NodePackage | NodeStruct | NodeClass | NodeInterface | NodeAnnotation
  | NodeGlobalVariable | NodeField | NodeFunction | NodeMethod | NodeEnum
  | NodeEnumConstant | NodeTypedef | NodeTypeParameter | NodeFile
  | NodeMacro | NodeUnion
deriving DecidableEq

/-- The fixed edge tag set (`EdgeType` in `src/types.rs`). -/
inductive EdgeType where
  | Undefined | Member | TypeUsage | Usage | Call | Inheritance
  | Override | TypeArgument | TemplateSpecialization | Include | Import
  | BundledEdges | MacroUsage | AnnotationUsage
deriving DecidableEq

/-- Symbol definition kinds (`SymbolType` in `src/types.rs`). -/
inductive SymbolType where
  | None | Implicit | Explicit
deriving DecidableEq

/-- Source location kinds (`SourceLocationType` in `src/types.rs`). -/
inductive SourceLocationType where
  | Token | Scope | Qualifier | LocalSymbol | Signature | AtomicRange
  | IndexerError | FulltextSearch | ScreenSearch | Unsolved
deriving DecidableEq

/-- A `node` table row: `{id, type, serialized_name}`. -/
structure NodeRow where
  id : Int
  type_ : NodeType
  name : Str
deriving DecidableEq

/-- An `edge` table row: `{id, type, source, target}`. -/
structure EdgeRow where
  id : Int
  type_ : EdgeType
  src : Int
  dst : Int
deriving DecidableEq

/-- A `symbol` table row: `{id, definition_kind}`. -/
structure SymbolRow where
  id : Int
  definition_kind : SymbolType
deriving DecidableEq

/-- A `source_location` table row. -/
structure SourceLocationRow where
  id : Int
  file_node_id : Int
  start_line : Int
  start_column : Int
  end_line : Int
  end_column : Int
  type_ : SourceLocationType
deriving DecidableEq

/-- An `occurrence` table row linking an element id to a location id. -/
structure OccurrenceRow where
  element_id : Int
  source_location_id : Int
deriving DecidableEq

/-- A `file` table row. -/
structure FileRow where
  id : Int
  path : Str
  language : String
  modification_time : Int
  indexed : Bool
  complete : Bool
  line_count : Nat
deriving DecidableEq

/-- A `filecontent` table row. -/
structure FileContentRow where
  id : Int
  content : Str
deriving DecidableEq

/-- The state of an open `SourcetrailDB` session: the table contents, the
two SQLite autoincrement counters (`element.id` and `source_location.id`),
and the in-memory interner `name_cache : HashMap<String, i64>` modelled as
an association list with most recent insertion first. -/
structure DB where
  nextId : Int
  nextLocId : Int
  nodes : List NodeRow
  edges : List EdgeRow
  symbols : List SymbolRow
  locations : List SourceLocationRow
  occurrences : List OccurrenceRow
  files : List FileRow
  fileContents : List FileContentRow
  name_cache : List (Str × Int)
deriving DecidableEq

/-- A freshly created empty store (`SourcetrailDB::create` after table
creation): both autoincrement counters are at 1 and the cache is empty. -/
def DB.empty : DB := ⟨1, 1, [], [], [], [], [], [], [], []⟩

/-- `ElementDAO::new`: allocate a fresh element id. -/
def elementNew (db : DB) : Int × DB :=
  (db.nextId, { db with nextId := db.nextId + 1 })

/-- `HashMap::get` on the interner cache. -/
def cacheLookup (k : Str) : List (Str × Int) → Option Int
  | [] => none
  | (k', v) :: rest => if k' = k then some v else cacheLookup k rest

/-- `NodeDAO::get`: fetch the node row with the given id (the id column is
the primary key, so at most one row matches). -/
def nodeGet (db : DB) (id : Int) : Option NodeRow :=
  db.nodes.find? (fun n => n.id == id)

/-- `SymbolDAO::get`. -/
def symbolGet (db : DB) (id : Int) : Option SymbolRow :=
  db.symbols.find? (fun s => s.id == id)

/-- `SourcetrailDB::add_if_not_existing`: on a cache miss allocate an
element id, insert a node row with the given kind and serialized name and
populate the cache; on a hit return the cached id unchanged. -/
def add_if_not_existing (db : DB) (name : Str) (type_ : NodeType) : Int × DB :=
  match cacheLookup name db.name_cache with
  | none =>
    let p := elementNew db
    (p.1, { p.2 with
      nodes := p.2.nodes ++ [⟨p.1, type_, name⟩],
      name_cache := (name, p.1) :: p.2.name_cache })
  | some id => (id, db)

/-- The interning loop of `SourcetrailDB::record_symbol`:
`for i in 0..size { ids.push(add_if_not_existing(serialize_range(0, i+1)?, NodeSymbol)?) }`,
phrased over an explicit list of loop indices. -/
def internLevels (h : NameHierarchy) : List Nat → DB → Except Err (List Int) × DB
  | [], db => (.ok [], db)
  | i :: is, db =>
    match h.serialize_range 0 (i + 1) with
    | .error e => (.error e, db)
    | .ok key =>
      let p := add_if_not_existing db key .NodeSymbol
      match internLevels h is p.2 with
      | (.error e, db') => (.error e, db')
      | (.ok ids, db') => (.ok (p.1 :: ids), db')

/-- The edge loop of `SourcetrailDB::record_symbol`: for every adjacent
pair of interned ids, allocate an element id (`ElementDAO::new`) and insert
a `Member` edge row (`EdgeDAO::new`). -/
def addMemberEdges : List Int → DB → DB
  | a :: b :: rest, db =>
    let p := elementNew db
    addMemberEdges (b :: rest) { p.2 with edges := p.2.edges ++ [⟨p.1, .Member, a, b⟩] }
  | _, db => db

/-- `SourcetrailDB::record_symbol`: intern every prefix level, link the
consecutive levels with `Member` edges, return the id of the deepest
level (`ids.last().expect(..)`, modelled by `PanicEmpty` when the
hierarchy is empty). -/
def record_symbol (db : DB) (h : NameHierarchy) : Except Err Int × DB :=
  match internLevels h (List.range h.size) db with
  | (.error e, db') => (.error e, db')
  | (.ok ids, db') =>
    let db'' := addMemberEdges ids db'
    match ids.getLast? with
    | some last => (.ok last, db'')
    | none => (.error .PanicEmpty, db'')

/-- `SourcetrailDB::record_symbol_kind`: if a node row with the id exists,
overwrite its kind in place (`NodeDAO::update`). -/
def record_symbol_kind (db : DB) (id : Int) (type_ : NodeType) : DB :=
  match nodeGet db id with
  | some _ =>
    let upd := fun (n : NodeRow) => if n.id == id then { n with type_ := type_ } else n
    { db with nodes := db.nodes.map upd }
  | none => db

/-- `SourcetrailDB::record_symbol_definition_kind`: if a symbol row
exists, overwrite its kind only when it differs (the equal case performs
no write); otherwise insert a fresh symbol row. -/
def record_symbol_definition_kind (db : DB) (id : Int) (kind : SymbolType) : DB :=
  match symbolGet db id with
  | some sym =>
    if sym.definition_kind ≠ kind then
      let upd := fun (s : SymbolRow) => if s.id == id then { s with definition_kind := kind } else s
      { db with symbols := db.symbols.map upd }
    else db
  | none => { db with symbols := db.symbols ++ [SymbolRow.mk id kind] }

/-- The graph-resolution step of `SourcetrailDB::full_record_node`:
resolve an explicit parent through `NodeDAO::get` (failing with
`ParentNotFound` before anything is written), decode the parent's stored
name and append the new element — or build a one-element hierarchy under
the given delimiter — then intern through `record_symbol`. -/
def full_record_node_step (db : DB) (name_element : NameElement) (delim : Str)
    (parent_id : Option Int) : Except Err Int × DB :=
  match parent_id with
  | some pid =>
    match nodeGet db pid with
    | none => (.error (.ParentNotFound pid), db)
    | some node =>
      match NameHierarchy.deserialize_name node.name with
      | .error e => (.error e, db)
      | .ok h => record_symbol db { h with elements := h.elements ++ [name_element] }
  | none =>
    match NameHierarchy.new delim [name_element] with
    | .error e => (.error e, db)
    | .ok h => record_symbol db h

/-- `SourcetrailDB::full_record_node`: build the element from the caller's
name/prefix/postfix (all three set), resolve and intern through
`full_record_node_step`, then narrow the leaf's kind and upsert the
definition kind to `Explicit` only when the caller marked the node
indexed. -/
def full_record_node (db : DB) (name pre post delim : Str)
    (parent_id : Option Int) (is_indexed : Bool) (node_type : NodeType) :
    Except Err Int × DB :=
  let name_element : NameElement := ⟨some pre, some name, some post⟩
  match full_record_node_step db name_element delim parent_id with
  | (.error e, db') => (.error e, db')
  | (.ok obj_id, db') =>
    let db'' := record_symbol_kind db' obj_id node_type
    let db''' := if is_indexed then record_symbol_definition_kind db'' obj_id .Explicit else db''
    (.ok obj_id, db''')

/-- `SourcetrailDB::record_source_location`: validate the range
(`SourceLocation::new`), insert a location row under a fresh
`source_location` autoincrement id, and insert an occurrence row linking
the element id to it. -/
def record_source_location (db : DB) (symbol_id file_id : Int)
    (start_line start_column end_line end_column : Int)
    (location_type : SourceLocationType) : Except Err Unit × DB :=
  if start_line > end_line ∨ (start_line = end_line ∧ start_column ≥ end_column) then
    (.error .InvalidSourceRange, db)
  else
    let loc_id := db.nextLocId
    let row := SourceLocationRow.mk loc_id file_id start_line start_column end_line end_column location_type
    let db' := { db with nextLocId := db.nextLocId + 1, locations := db.locations ++ [row] }
    (.ok (), { db' with occurrences := db'.occurrences ++ [OccurrenceRow.mk symbol_id loc_id] })

/-! ## The validated record builders -/

/-- The node builder (`NodeRecorder` in `src/api.rs`): name, prefix,
postfix default to empty text, the delimiter defaults to `"::"`, the
parent is optional and `indexed` defaults to true. -/
structure NodeRecorderS where
  name : Str := []
  pre : Str := []
  post : Str := []
  delimiter : Str := cxxDelim
  parent_id : Option Int := none
  is_indexed : Bool := true
  node_type : NodeType
deriving DecidableEq

/-- `NodeRecorder::commit` delegates to `full_record_node`. -/
def NodeRecorderS.commit (r : NodeRecorderS) (db : DB) : Except Err Int × DB :=
  full_record_node db r.name r.pre r.post r.delimiter r.parent_id r.is_indexed r.node_type

/-- The source-location builder (`SourceLocationRecorder`): every
field starts at the sentinel `-1` meaning unset. -/
structure SourceLocationRecorderS where
  symbol_id : Int := -1
  file_id : Int := -1
  start_line : Int := -1
  start_column : Int := -1
  end_line : Int := -1
  end_column : Int := -1
  location_kind : SourceLocationType
deriving DecidableEq

/-- `SourceLocationRecorder::commit`: required-field checks in source
order, then the ordering-invariant check, then the write through
`record_source_location`. -/
def SourceLocationRecorderS.commit (r : SourceLocationRecorderS) (db : DB) :
    Except Err Unit × DB :=
  if r.symbol_id = -1 then (.error (.SourceLocationMsg ("missing symbol")), db)
  else if r.file_id = -1 then (.error (.SourceLocationMsg ("missing file")), db)
  else if r.start_line = -1 ∨ r.start_column = -1 then
    (.error (.SourceLocationMsg ("missing start position")), db)
  else if r.end_line = -1 ∨ r.end_column = -1 then
    (.error (.SourceLocationMsg ("missing end position")), db)
  else if r.start_line > r.end_line ∨
      (r.start_line = r.end_line ∧ r.start_column ≥ r.end_column) then
    (.error (.SourceLocationMsg ("invalid source range")), db)
  else
    record_source_location db r.symbol_id r.file_id
      r.start_line r.start_column r.end_line r.end_column r.location_kind

/-- The constant one-element hierarchy used for every unsolved-symbol
reference: the literal element `"unsolved symbol"` under the
unknown-delimiter namespace `"@"`. -/
def unsolvedHierarchy : NameHierarchy :=
  ⟨unknownDelim, [⟨none, some ("unsolved symbol".toList), none⟩]⟩

/-- The encoded interner key of the unsolved-symbol placeholder. -/
def unsolvedKey : Str := "@\tmunsolved symbol\ts\tp".toList

/-- The unsolved-symbol builder (`UnsolvedSymbolRecorder`). -/
structure UnsolvedSymbolRecorderS where
  symbol_id : Int := -1
  reference_type : Option EdgeType := none
  file_id : Int := -1
  start_line : Int := -1
  start_column : Int := -1
  end_line : Int := -1
  end_column : Int := -1
deriving DecidableEq

/-- `UnsolvedSymbolRecorder::commit`: validation in source order, then
intern the shared placeholder through `record_symbol`, create a reference
edge of the requested type from the caller's symbol to the placeholder,
record an `Unsolved` source location tied to the edge id, and return the
edge id. -/
def UnsolvedSymbolRecorderS.commit (r : UnsolvedSymbolRecorderS) (db : DB) :
    Except Err Int × DB :=
  if r.symbol_id = -1 then (.error (.UnsolvedSymbolMsg ("missing symbol")), db)
  else if r.file_id = -1 then (.error (.UnsolvedSymbolMsg ("missing file")), db)
  else if r.start_line = -1 ∨ r.start_column = -1 then
    (.error (.UnsolvedSymbolMsg ("missing start position")), db)
  else if r.end_line = -1 ∨ r.end_column = -1 then
    (.error (.UnsolvedSymbolMsg ("missing end position")), db)
  else if r.start_line > r.end_line ∨
      (r.start_line = r.end_line ∧ r.start_column ≥ r.end_column) then
    (.error (.UnsolvedSymbolMsg ("invalid source range")), db)
  else
    match r.reference_type with
    | none => (.error (.UnsolvedSymbolMsg ("missing reference type")), db)
    | some rt =>
      match NameHierarchy.new unknownDelim [⟨none, some ("unsolved symbol".toList), none⟩] with
      | .error e => (.error e, db)
      | .ok h =>
        match record_symbol db h with
        | (.error e, db') => (.error e, db')
        | (.ok unsolved_symbol_id, db') =>
          let p := elementNew db'
          let db'' := { p.2 with
            edges := p.2.edges ++ [⟨p.1, rt, r.symbol_id, unsolved_symbol_id⟩] }
          match record_source_location db'' p.1 r.file_id
              r.start_line r.start_column r.end_line r.end_column .Unsolved with
          | (.error e, db''') => (.error e, db''')
          | (.ok _, db''') => (.ok p.1, db''')

/-- Rust's `str::lines().count()`: the number of newline characters, plus
one more when the text is non-empty and does not end in a newline (a final
line without a terminator still counts). -/
def rustLinesCount (s : Str) : Nat :=
  if s = [] then 0
  else s.count '\n' + (if s.getLast? = some '\n' then 0 else 1)

/-- The number of newline-terminated segments of a text: one per newline
character. -/
def newlineTerminatedSegments (s : Str) : Nat := s.count '\n'

/-- The `derive_builder`-generated `FileBuilder` for the `File` row type:
one optional slot per field, every field required at `build()` time (no
field of `File` carries a `default` attribute). -/
structure FileBuilderS where
  id : Option Int := none
  path : Option Str := none
  language : Option String := none
  modification_time : Option Int := none
  indexed : Option Bool := none
  complete : Option Bool := none
  line_count : Option Nat := none
deriving DecidableEq

/-- `FileBuilder::build`: fails with an uninitialized-field error unless
every field has been set (the real error message names the missing field;
only the fact that it is a `Builder` failure matters here). -/
def FileBuilderS.build (b : FileBuilderS) : Except Err FileRow :=
  match b.id, b.path, b.language, b.modification_time, b.indexed, b.complete, b.line_count with
  | some i, some p, some l, some m, some ix, some c, some lc => .ok ⟨i, p, l, m, ix, c, lc⟩
  | _, _, _, _, _, _, _ => .error (.Builder ("uninitialized field"))

/-- `SourcetrailDB::record_file_with`: build the one-element path
hierarchy under the `/` delimiter, compute the line count from the content
when indexed (0 otherwise), intern the file node, then build the `File`
row — note that the `language` field is never set on the builder — and on
success insert it, plus the content row when indexed. -/
def record_file_with (db : DB) (path : Str) (modification_time : Int)
    (content : Str) (indexed : Bool) : Except Err Int × DB :=
  match NameHierarchy.new fileDelim [⟨none, some path, none⟩] with
  | .error e => (.error e, db)
  | .ok h =>
    let lines := if indexed then rustLinesCount content else 0
    match h.serialize_name with
    | .error e => (.error e, db)
    | .ok key =>
      let p := add_if_not_existing db key .NodeFile
      match (({ id := some p.1, path := some path,
                modification_time := some modification_time,
                indexed := some indexed, complete := some true,
                line_count := some lines } : FileBuilderS)).build with
      | .error e => (.error e, p.2)
      | .ok f =>
        let db' := { p.2 with files := p.2.files ++ [f] }
        let db'' := if indexed then
            { db' with fileContents := db'.fileContents ++ [⟨p.1, content⟩] }
          else db'
        (.ok p.1, db'')

/-- The file builder (`FileRecorder`): path required, modification time
defaulting to the wall clock (an opaque timestamp here), content
defaulting to empty, `indexed` defaulting to true. -/
structure FileRecorderS where
  path : Option Str := none
  modification_time : Int := 0
  content : Str := []
  indexed : Bool := true
deriving DecidableEq

/-- `FileRecorder::commit`. -/
def FileRecorderS.commit (r : FileRecorderS) (db : DB) : Except Err Int × DB :=
  match r.path with
  | none => (.error (.FileRecorderMsg ("missing file path")), db)
  | some path => record_file_with db path r.modification_time r.content r.indexed

/-- `FileRecorder::commit_file` after its disk I/O succeeded: the file at
`path` was opened and read, yielding the modification time `modified` and
the text `content`; the recorder then delegates to `commit` with path,
modification time and content set.  The disk read itself is I/O and stays
outside the model. -/
def FileRecorderS.commit_file (r : FileRecorderS) (path : Str) (modified : Int)
    (content : Str) (db : DB) : Except Err Int × DB :=
  ({ r with path := some path, modification_time := modified, content := content }).commit db

/-! ## Marker-freeness and the encode/decode analysis -/

/-- A text is marker free when it contains none of the four control
markers `"\tm"`, `"\tn"`, `"\ts"`, `"\tp"` as a contiguous substring. -/
def markFree (l : Str) : Prop :=
  ¬ tmMark <:+: l ∧ ¬ tnMark <:+: l ∧ ¬ tsMark <:+: l ∧ ¬ tpMark <:+: l

instance (l : Str) : Decidable (markFree l) := by
  unfold markFree; infer_instance

/-- All texts of an element (with unset fields reading as empty, hence
trivially marker free) are marker free. -/
def elementMarkFree (e : NameElement) : Prop :=
  markFree (e.pre.getD []) ∧ markFree (e.name.getD []) ∧ markFree (e.post.getD [])

instance (e : NameElement) : Decidable (elementMarkFree e) := by
  unfold elementMarkFree; infer_instance

/-- The delimiter and every element text of the hierarchy are marker free. -/
def hierarchyMarkFree (h : NameHierarchy) : Prop :=
  markFree h.delimiter ∧ ∀ e ∈ h.elements, elementMarkFree e

instance (h : NameHierarchy) : Decidable (hierarchyMarkFree h) := by
  unfold hierarchyMarkFree; infer_instance

/-- An element with every unset field replaced by the (set) empty text:
this is what decoding gives back for it. -/
def normalizeElement (e : NameElement) : NameElement :=
  ⟨some (e.pre.getD []), some (e.name.getD []), some (e.post.getD [])⟩

/-- A hierarchy with every unset field of every element replaced by the
set empty text. -/
def normalizeHierarchy (h : NameHierarchy) : NameHierarchy :=
  ⟨h.delimiter, h.elements.map normalizeElement⟩

/-- The element encoding exactly as the specification words it:
`NAME + "\ts" + PREFIX + "\tp" + POSTFIX`, with unset fields defaulting to
empty text.  Kept separate from `serializeElement` (which is translated
from the source) so the two can be compared. -/
def specEncodeElement (e : NameElement) : Str :=
  e.name.getD [] ++ tsMark ++ e.pre.getD [] ++ tpMark ++ e.post.getD []

/-- The interner key of prefix level `i` (0-based): the value of
`serialize_range(0, i+1)` for a valid level. -/
def levelKey (h : NameHierarchy) (i : Nat) : Str :=
  h.delimiter ++ tmMark ++ joinSep tnMark ((h.elements.take (i + 1)).map serializeElement)

/-- All required fields of an unsolved-symbol builder are set (none of the
position sentinels is `-1`), the positions satisfy the ordering invariant,
and the reference type is `t`. -/
def ValidUnsolved (r : UnsolvedSymbolRecorderS) (t : EdgeType) : Prop :=
  r.symbol_id ≠ -1 ∧ r.file_id ≠ -1 ∧ r.start_line ≠ -1 ∧ r.start_column ≠ -1 ∧
  r.end_line ≠ -1 ∧ r.end_column ≠ -1 ∧
  ¬ (r.start_line > r.end_line ∨ (r.start_line = r.end_line ∧ r.start_column ≥ r.end_column)) ∧
  r.reference_type = some t

instance (r : UnsolvedSymbolRecorderS) (t : EdgeType) : Decidable (ValidUnsolved r t) := by
  unfold ValidUnsolved; infer_instance

/-- The consecutive element ids `base, base+1, …, base+n-1`. -/
def idSpan (base : Int) : Nat → List Int
  | 0 => []
  | n + 1 => base :: idSpan (base + 1) n

/-- The node rows created by a fresh interning run: consecutive ids from
`base`, all tagged `NodeSymbol`, named by the level keys from level `k`. -/
def nodeSpan (h : NameHierarchy) (base : Int) (k : Nat) : Nat → List NodeRow
  | 0 => []
  | n + 1 => ⟨base, .NodeSymbol, levelKey h k⟩ :: nodeSpan h (base + 1) (k + 1) n

/-- The interner cache entries created by a fresh interning run, in
insertion order. -/
def cacheSpan (h : NameHierarchy) (base : Int) (k : Nat) : Nat → List (Str × Int)
  | 0 => []
  | n + 1 => (levelKey h k, base) :: cacheSpan h (base + 1) (k + 1) n

/-- The membership edge rows created by the edge loop over consecutive
ids `a, a+1, …`: edge ids from `ebase`, each linking level `i` to level
`i+1`. -/
def edgeSpan (ebase a : Int) : Nat → List EdgeRow
  | 0 => []
  | n + 1 => ⟨ebase, .Member, a, a + 1⟩ :: edgeSpan (ebase + 1) (a + 1) n

/-! ## Concrete fixtures used by the witness theorems -/

/-- A one-element hierarchy whose only element has all three fields unset. -/
def hUnsetCx : NameHierarchy := ⟨cxxDelim, [⟨none, none, none⟩]⟩

/-- A one-element hierarchy whose only element has all three fields set to
the empty text. -/
def hAllSet : NameHierarchy := ⟨cxxDelim, [⟨some [], some [], some []⟩]⟩

/-- A two-element hierarchy with every field set and marker-free texts. -/
def hW : NameHierarchy :=
  ⟨cxxDelim, [⟨some [], some ("A".toList), some []⟩,
              ⟨some ("p".toList), some ("B".toList), some ("q".toList)⟩]⟩

/-- The empty store fixture. -/
def db0 : DB := DB.empty

/-- A node recorder fixture: a class named `X`, not marked indexed. -/
def nrNotIndexed : NodeRecorderS :=
  { name := "X".toList, is_indexed := false, node_type := .NodeClass }

/-- A node recorder fixture: a class named `X`, marked indexed (default). -/
def nrIndexed : NodeRecorderS := { name := "X".toList, node_type := .NodeClass }

/-- A node recorder fixture naming a parent id that does not exist. -/
def nrBadParent : NodeRecorderS :=
  { name := "X".toList, parent_id := some 42, node_type := .NodeClass }

/-- A source-location recorder fixture with the degenerate range
`start = (5,10)`, `end = (5,10)`. -/
def slrDegenerate : SourceLocationRecorderS :=
  { symbol_id := 7, file_id := 3, start_line := 5, start_column := 10,
    end_line := 5, end_column := 10, location_kind := .Token }

/-- A source-location recorder fixture with the valid range
`start = (5,10)`, `end = (5,11)`. -/
def slrValid : SourceLocationRecorderS :=
  { symbol_id := 7, file_id := 3, start_line := 5, start_column := 10,
    end_line := 5, end_column := 11, location_kind := .Token }

/-- An unsolved-symbol recorder fixture requesting a `Usage` edge. -/
def usrA : UnsolvedSymbolRecorderS :=
  { symbol_id := 7, reference_type := some .Usage, file_id := 3,
    start_line := 1, start_column := 0, end_line := 1, end_column := 5 }

/-- A second unsolved-symbol recorder fixture requesting a `Call` edge. -/
def usrB : UnsolvedSymbolRecorderS :=
  { symbol_id := 9, reference_type := some .Call, file_id := 3,
    start_line := 2, start_column := 0, end_line := 2, end_column := 4 }

theorem markSeq_infix_append {x : Char} {a b : Str} (h : markSeq x <:+: a ++ b) :
    markSeq x <:+: a ∨ markSeq x <:+: b ∨
      (a.getLast? = some '\t' ∧ b.head? = some x) := by
  induction a with
  | nil => right; left; simpa using h
  | cons c a ih =>
    rw [List.cons_append] at h
    rcases List.infix_cons_iff.mp h with hpre | hinf
    · rcases List.cons_prefix_cons.mp hpre with ⟨h1, htail⟩
      subst h1
      cases a with
      | nil =>
        right; right
        refine ⟨by simp, ?_⟩
        simp only [List.nil_append] at htail
        cases b with
        | nil => simp at htail
        | cons e b' =>
          rcases List.cons_prefix_cons.mp htail with ⟨h2, _⟩
          simp [h2]
      | cons d a' =>
        left
        rcases List.cons_prefix_cons.mp htail with ⟨h2, _⟩
        subst h2
        exact ⟨[], a', by simp [markSeq]⟩
    · rcases ih hinf with h1 | h2 | h3
      · exact Or.inl (List.infix_cons h1)
      · exact Or.inr (Or.inl h2)
      · refine Or.inr (Or.inr ⟨?_, h3.2⟩)
        cases a with
        | nil => simp at h3
        | cons d a' => simpa using h3.1

theorem not_markSeq_infix_append {x : Char} {a b : Str}
    (ha : ¬ markSeq x <:+: a) (hb : ¬ markSeq x <:+: b)
    (hbd : ¬ (a.getLast? = some '\t' ∧ b.head? = some x)) :
    ¬ markSeq x <:+: a ++ b :=
  fun h => (markSeq_infix_append h).elim ha (fun h' => h'.elim hb hbd)

theorem splitOnMark_of_not_infix {x : Char} (p : Str) (hp : ¬ markSeq x <:+: p) :
    splitOnMark x p = [p] := by
  induction p with
  | nil => rfl
  | cons c p ih =>
    cases p with
    | nil => rfl
    | cons d p' =>
      have hcond : ¬ (c = '\t' ∧ d = x) := by
        rintro ⟨rfl, rfl⟩
        exact hp ⟨[], p', by simp [markSeq]⟩
      have htail : ¬ markSeq x <:+: d :: p' := fun h => hp (List.infix_cons h)
      simp only [splitOnMark, if_neg hcond, ih htail]

theorem splitOnMark_append {x : Char} (hx : x ≠ '\t') (p r : Str)
    (hp : ¬ markSeq x <:+: p) :
    splitOnMark x (p ++ (markSeq x ++ r)) = p :: splitOnMark x r := by
  induction p with
  | nil => simp [splitOnMark, markSeq]
  | cons c p ih =>
    have hp' : ¬ markSeq x <:+: p := fun h => hp (List.infix_cons h)
    cases p with
    | nil =>
      have hcond : ¬ (c = '\t' ∧ '\t' = x) := fun h => hx h.2.symm
      simp only [List.nil_append, List.cons_append, markSeq, splitOnMark, if_neg hcond]
      simp [splitOnMark]
    | cons d p' =>
      have hcond : ¬ (c = '\t' ∧ d = x) := by
        rintro ⟨rfl, rfl⟩
        exact hp ⟨[], p', by simp [markSeq]⟩
      have hstep := ih hp'
      simp only [List.cons_append] at hstep ⊢
      simp only [splitOnMark, if_neg hcond, hstep]

theorem findMark_append {x : Char} (hx : x ≠ '\t') (d r : Str)
    (hd : ¬ markSeq x <:+: d) :
    findMark x (d ++ (markSeq x ++ r)) = some d.length := by
  induction d with
  | nil => simp [findMark, markSeq]
  | cons c d' ih =>
    have hd' : ¬ markSeq x <:+: d' := fun h => hd (List.infix_cons h)
    cases d' with
    | nil =>
      have hcond : ¬ (c = '\t' ∧ '\t' = x) := fun h => hx h.2.symm
      simp [List.nil_append, List.cons_append, markSeq, findMark, if_neg hcond]
    | cons e d'' =>
      have hcond : ¬ (c = '\t' ∧ e = x) := by
        rintro ⟨rfl, rfl⟩
        exact hd ⟨[], d'', by simp [markSeq]⟩
      have hstep := ih hd'
      simp only [List.cons_append] at hstep ⊢
      simp [findMark, if_neg hcond, hstep]

theorem splitOnMark_joinSep {x : Char} (hx : x ≠ '\t') (ps : List Str)
    (hne : ps ≠ []) (hp : ∀ p ∈ ps, ¬ markSeq x <:+: p) :
    splitOnMark x (joinSep (markSeq x) ps) = ps := by
  induction ps with
  | nil => exact absurd rfl hne
  | cons p ps ih =>
    cases ps with
    | nil => simpa [joinSep] using splitOnMark_of_not_infix p (hp p (by simp))
    | cons q ps' =>
      have hj : joinSep (markSeq x) (p :: q :: ps') =
          p ++ (markSeq x ++ joinSep (markSeq x) (q :: ps')) := by
        simp [joinSep, List.append_assoc]
      rw [hj, splitOnMark_append hx p _ (hp p (by simp)),
        ih (by simp) (fun u hu => hp u (by simp [hu]))]

theorem ts_not_infix_segment {e : NameElement} (he : elementMarkFree e) :
    ¬ markSeq 's' <:+: (e.pre.getD [] ++ (markSeq 'p' ++ e.post.getD [])) := by
  obtain ⟨hpre, hname, hpost⟩ := he
  refine not_markSeq_infix_append hpre.2.2.1 ?_ (by simp [markSeq])
  exact not_markSeq_infix_append (by decide) hpost.2.2.1 (by simp [markSeq])

theorem tn_not_infix_serializeElement {e : NameElement} (he : elementMarkFree e) :
    ¬ markSeq 'n' <:+: serializeElement e := by
  obtain ⟨hpre, hname, hpost⟩ := he
  have hassoc : serializeElement e = e.name.getD [] ++
      (markSeq 's' ++ (e.pre.getD [] ++ (markSeq 'p' ++ e.post.getD []))) := by
    simp [serializeElement, tsMark, tpMark, List.append_assoc]
  rw [hassoc]
  refine not_markSeq_infix_append hname.2.1 ?_ (by simp [markSeq])
  refine not_markSeq_infix_append (by decide) ?_ (by simp [markSeq])
  refine not_markSeq_infix_append hpre.2.1 ?_ (by simp [markSeq])
  exact not_markSeq_infix_append (by decide) hpost.2.1 (by simp [markSeq])

theorem decodeElement_serializeElement (e : NameElement) (he : elementMarkFree e) :
    decodeElement (serializeElement e) = .ok (normalizeElement e) := by
  have hseg := ts_not_infix_segment he
  obtain ⟨hpre, hname, hpost⟩ := he
  have hassoc : serializeElement e = e.name.getD [] ++
      (markSeq 's' ++ (e.pre.getD [] ++ (markSeq 'p' ++ e.post.getD []))) := by
    simp [serializeElement, tsMark, tpMark, List.append_assoc]
  simp only [decodeElement, hassoc]
  rw [splitOnMark_append (by decide) _ _ hname.2.2.1, splitOnMark_of_not_infix _ hseg]
  simp only [List.length_cons, List.length_nil, List.getD_cons_zero, List.getD_cons_succ]
  rw [if_neg (by omega)]
  rw [splitOnMark_append (by decide) _ _ hpre.2.2.2, splitOnMark_of_not_infix _ hpost.2.2.2]
  simp [normalizeElement]

theorem decodeElements_map (es : List NameElement)
    (he : ∀ e ∈ es, elementMarkFree e) :
    decodeElements (es.map serializeElement) = .ok (es.map normalizeElement) := by
  induction es with
  | nil => rfl
  | cons e es ih =>
    simp only [List.map_cons, decodeElements,
      decodeElement_serializeElement e (he e (by simp)),
      ih (fun u hu => he u (by simp [hu]))]

theorem serialize_name_eq (h : NameHierarchy) (hne : h.elements ≠ []) :
    h.serialize_name = .ok (h.delimiter ++ (markSeq 'm' ++
      joinSep (markSeq 'n') (h.elements.map serializeElement))) := by
  have hlen : 0 < h.elements.length := List.length_pos.mpr hne
  simp only [NameHierarchy.serialize_name, NameHierarchy.serialize_range, NameHierarchy.size]
  rw [if_neg (by omega)]
  simp [tmMark, tnMark, List.append_assoc]

theorem deserialize_serialize_name (h : NameHierarchy) (hne : h.elements ≠ [])
    (hmf : hierarchyMarkFree h) :
    NameHierarchy.deserialize_name (h.delimiter ++ (markSeq 'm' ++
      joinSep (markSeq 'n') (h.elements.map serializeElement)))
      = .ok (normalizeHierarchy h) := by
  obtain ⟨hdel, hel⟩ := hmf
  have hsplit : splitOnMark 'n' (joinSep (markSeq 'n') (h.elements.map serializeElement))
      = h.elements.map serializeElement := by
    refine splitOnMark_joinSep (by decide) _ (by simpa using hne) ?_
    intro p hp
    obtain ⟨e, hmem, rfl⟩ := List.mem_map.mp hp
    exact tn_not_infix_serializeElement (hel e hmem)
  have hdrop : (h.delimiter ++ (markSeq 'm' ++
      joinSep (markSeq 'n') (h.elements.map serializeElement))).drop (h.delimiter.length + 2)
      = joinSep (markSeq 'n') (h.elements.map serializeElement) := by
    rw [← List.append_assoc]
    have hlen2 : (h.delimiter ++ markSeq 'm').length = h.delimiter.length + 2 := by
      simp [markSeq]
    rw [← hlen2, List.drop_left]
  simp only [NameHierarchy.deserialize_name, findMark_append (by decide) _ _ hdel.1,
    hdrop, hsplit, decodeElements_map _ hel]
  have hne' : (h.elements.map normalizeElement).isEmpty = false := by
    simpa [List.isEmpty_iff] using hne
  simp [NameHierarchy.new, hne', normalizeHierarchy]

theorem normalizeElement_eq_of_set (e : NameElement)
    (hset : e.pre.isSome ∧ e.name.isSome ∧ e.post.isSome) :
    normalizeElement e = e := by
  obtain ⟨p, hp⟩ := Option.isSome_iff_exists.mp hset.1
  obtain ⟨n, hn⟩ := Option.isSome_iff_exists.mp hset.2.1
  obtain ⟨q, hq⟩ := Option.isSome_iff_exists.mp hset.2.2
  cases e with
  | mk a b c => simp_all [normalizeElement]

theorem map_eq_self_of {α : Type} (l : List α) (f : α → α) (hf : ∀ a ∈ l, f a = a) :
    l.map f = l := by
  induction l with
  | nil => rfl
  | cons a l ih => simp [hf a (by simp), ih (fun u hu => hf u (by simp [hu]))]

theorem normalizeHierarchy_eq_of_set (h : NameHierarchy)
    (hset : ∀ e ∈ h.elements, e.pre.isSome ∧ e.name.isSome ∧ e.post.isSome) :
    normalizeHierarchy h = h := by
  cases h with
  | mk d es =>
    simp only [normalizeHierarchy, NameHierarchy.mk.injEq, true_and]
    exact map_eq_self_of es normalizeElement (fun e he => normalizeElement_eq_of_set e (hset e he))

theorem decodeElement_fields_set {part : Str} {e : NameElement}
    (h : decodeElement part = .ok e) :
    e.pre.isSome ∧ e.name.isSome ∧ e.post.isSome := by
  simp only [decodeElement] at h
  split at h
  · exact absurd h (by simp)
  · split at h
    · exact absurd h (by simp)
    · simp only [Except.ok.injEq] at h
      subst h
      simp

theorem decodeElements_fields_set : ∀ (ps : List Str) (es : List NameElement),
    decodeElements ps = .ok es →
    ∀ e ∈ es, e.pre.isSome ∧ e.name.isSome ∧ e.post.isSome := by
  intro ps
  induction ps with
  | nil =>
    intro es h
    simp only [decodeElements, Except.ok.injEq] at h
    subst h
    simp
  | cons p ps ih =>
    intro es h
    simp only [decodeElements] at h
    cases hd : decodeElement p with
    | error err => rw [hd] at h; exact absurd h (by simp)
    | ok el =>
      rw [hd] at h
      cases hds : decodeElements ps with
      | error err => rw [hds] at h; exact absurd h (by simp)
      | ok els =>
        rw [hds] at h
        simp only [Except.ok.injEq] at h
        subst h
        intro e he
        rcases List.mem_cons.mp he with rfl | he'
        · exact decodeElement_fields_set hd
        · exact ih els hds e he'

theorem deserialize_fields_set (s : Str) (h' : NameHierarchy)
    (h : NameHierarchy.deserialize_name s = .ok h') :
    ∀ e ∈ h'.elements, e.pre.isSome ∧ e.name.isSome ∧ e.post.isSome := by
  unfold NameHierarchy.deserialize_name at h
  split at h
  · exact absurd h (by simp)
  · split at h
    · exact absurd h (by simp)
    · rename_i idx elements hds
      unfold NameHierarchy.new at h
      split at h
      · exact absurd h (by simp)
      · simp only [Except.ok.injEq] at h
        subst h
        exact decodeElements_fields_set _ _ hds

/-! ## Claim theorems: the name encoding (C1, C2, C10) -/

/-- C1 (counterexample): the round trip is not the identity as soon as an
element field is unset: the all-unset one-element hierarchy is marker free
and serializes fine, but decoding the encoding yields set-to-empty fields,
not the original hierarchy. -/
theorem round_trip_cx :
    hierarchyMarkFree hUnsetCx ∧
    NameHierarchy.serialize_name hUnsetCx = .ok ("::\tm\ts\tp".toList) ∧
    NameHierarchy.deserialize_name ("::\tm\ts\tp".toList) ≠ .ok hUnsetCx := by
  refine ⟨by decide, by decide, by decide⟩

/-- C1 (amended): for every `NameHierarchy` whose delimiter and element
texts contain none of the control markers, and all of whose elements have
prefix, name and postfix set, `deserialize_name (serialize_name h)`
succeeds and returns `h` element-for-element and delimiter-for-delimiter
(with an unset field the round trip instead returns that field set to the
empty text). -/
theorem round_trip (h : NameHierarchy) (hne : h.elements ≠ [])
    (hmf : hierarchyMarkFree h)
    (hset : ∀ e ∈ h.elements, e.pre.isSome ∧ e.name.isSome ∧ e.post.isSome) :
    ∃ s, h.serialize_name = .ok s ∧ NameHierarchy.deserialize_name s = .ok h := by
  refine ⟨_, serialize_name_eq h hne, ?_⟩
  rw [deserialize_serialize_name h hne hmf, normalizeHierarchy_eq_of_set h hset]

/-- Witness for `round_trip` at a concrete two-element hierarchy. -/
theorem round_trip_witness :
    ∃ s, hW.serialize_name = .ok s ∧ NameHierarchy.deserialize_name s = .ok hW :=
  round_trip hW (by decide) (by decide) (by decide)

/-- C2: `serialize_range(start, stop)` succeeds exactly when
`start < stop` and `stop ≤ size`; on success it returns the delimiter,
then `"\tm"`, then the elements of `[start, stop)` each encoded as
`NAME + "\ts" + PREFIX + "\tp" + POSTFIX` (unset fields as empty text)
joined with `"\tn"`; and `serialize_name()` equals
`serialize_range(0, size)`. -/
theorem serialize_range_spec (h : NameHierarchy) (start stop : Nat) :
    ((∃ s, h.serialize_range start stop = .ok s) ↔ start < stop ∧ stop ≤ h.size) ∧
    (∀ s, h.serialize_range start stop = .ok s →
      s = h.delimiter ++ tmMark ++
        joinSep tnMark (((h.elements.drop start).take (stop - start)).map specEncodeElement)) ∧
    h.serialize_name = h.serialize_range 0 h.size := by
  refine ⟨⟨?_, ?_⟩, ?_, rfl⟩
  · rintro ⟨s, hs⟩
    by_contra hc
    have hbad : start ≥ stop ∨ stop > h.elements.length := by
      simp only [NameHierarchy.size] at hc
      omega
    simp [NameHierarchy.serialize_range, if_pos hbad] at hs
  · intro hc
    have hok : ¬ (start ≥ stop ∨ stop > h.elements.length) := by
      simp only [NameHierarchy.size] at hc
      omega
    refine ⟨h.delimiter ++ tmMark ++
      joinSep tnMark (((h.elements.drop start).take (stop - start)).map serializeElement), ?_⟩
    simp only [NameHierarchy.serialize_range, if_neg hok]
  · intro s hs
    simp only [NameHierarchy.serialize_range] at hs
    by_cases hc : start ≥ stop ∨ stop > h.elements.length
    · simp [if_pos hc] at hs
    · rw [if_neg hc] at hs
      simp only [Except.ok.injEq] at hs
      subst hs
      rfl

/-- Witness for `serialize_range_spec` at a concrete hierarchy and range. -/
theorem serialize_range_spec_witness :
    (0 < 2 ∧ 2 ≤ hW.size) ∧
    ("::\tmA\ts\tp\tnB\tsp\tpq".toList) = hW.delimiter ++ tmMark ++
      joinSep tnMark (((hW.elements.drop 0).take (2 - 0)).map specEncodeElement) :=
  ⟨by decide, (serialize_range_spec hW 0 2).2.1 _ (by rfl)⟩

/-- C10: encoding does not distinguish an unset field from one set to the
empty text (`serialize_range` of the normalized hierarchy is the same,
and the element encoding is not injective), while `deserialize_name`
always returns elements with all three fields set. -/
theorem encoding_unset_identification :
    (∀ (h : NameHierarchy) (start stop : Nat),
      (normalizeHierarchy h).serialize_range start stop = h.serialize_range start stop) ∧
    (∃ e e' : NameElement, e ≠ e' ∧ serializeElement e = serializeElement e') ∧
    (∀ (s : Str) (h' : NameHierarchy), NameHierarchy.deserialize_name s = .ok h' →
      ∀ e ∈ h'.elements, e.pre.isSome ∧ e.name.isSome ∧ e.post.isSome) := by
  refine ⟨?_, ⟨⟨none, none, none⟩, ⟨some [], some [], some []⟩, by decide, by decide⟩, ?_⟩
  · intro h start stop
    have hcomp : serializeElement ∘ normalizeElement = serializeElement :=
      funext (fun e => rfl)
    simp [NameHierarchy.serialize_range, normalizeHierarchy, List.map_take,
      List.map_drop, List.map_map, hcomp]
  · exact fun s h' hs => deserialize_fields_set s h' hs

/-- Witness for `encoding_unset_identification` at concrete inputs. -/
theorem encoding_unset_identification_witness :
    (normalizeHierarchy hUnsetCx).serialize_range 0 1 = hUnsetCx.serialize_range 0 1 ∧
    (∀ e ∈ hAllSet.elements, e.pre.isSome ∧ e.name.isSome ∧ e.post.isSome) :=
  ⟨encoding_unset_identification.1 hUnsetCx 0 1,
   encoding_unset_identification.2.2 ("::\tm\ts\tp".toList) hAllSet (by rfl)⟩

/-! ## The graph builder: interning analysis (C3, C4) -/

theorem serialize_range_zero (h : NameHierarchy) (i : Nat) (hi : i < h.size) :
    h.serialize_range 0 (i + 1) = .ok (levelKey h i) := by
  simp only [NameHierarchy.size] at hi
  simp only [NameHierarchy.serialize_range]
  rw [if_neg (by omega)]
  simp [levelKey]

theorem joinSep_cons_cons (sep p q : Str) (rest : List Str) :
    joinSep sep (p :: q :: rest) = p ++ sep ++ joinSep sep (q :: rest) := rfl

theorem joinSep_append (sep : Str) (as bs : List Str) (ha : as ≠ []) (hb : bs ≠ []) :
    joinSep sep (as ++ bs) = joinSep sep as ++ sep ++ joinSep sep bs := by
  induction as with
  | nil => exact absurd rfl ha
  | cons a as ih =>
    cases as with
    | nil =>
      cases bs with
      | nil => exact absurd rfl hb
      | cons b bs' => simp [joinSep_cons_cons, joinSep]
    | cons a' as' =>
      have hih := ih (by simp)
      calc joinSep sep ((a :: a' :: as') ++ bs)
          = a ++ sep ++ joinSep sep ((a' :: as') ++ bs) := rfl
        _ = a ++ sep ++ (joinSep sep (a' :: as') ++ sep ++ joinSep sep bs) := by rw [hih]
        _ = (a ++ sep ++ joinSep sep (a' :: as')) ++ sep ++ joinSep sep bs := by
            simp [List.append_assoc]
        _ = joinSep sep (a :: a' :: as') ++ sep ++ joinSep sep bs := by
            rw [joinSep_cons_cons]

theorem levelKey_length_lt (h : NameHierarchy) (i j : Nat) (hij : i < j)
    (hj : j < h.size) :
    (levelKey h i).length < (levelKey h j).length := by
  simp only [NameHierarchy.size] at hj
  have hadd : j + 1 = (i + 1) + (j - i) := by omega
  have hsplit : h.elements.take (j + 1) =
      h.elements.take (i + 1) ++ ((h.elements.drop (i + 1)).take (j - i)) := by
    rw [hadd, List.take_add]
  have hne1 : (h.elements.take (i + 1)).map serializeElement ≠ [] := by
    refine List.length_pos.mp ?_
    simp only [List.length_map, List.length_take]
    omega
  have hne2 : ((h.elements.drop (i + 1)).take (j - i)).map serializeElement ≠ [] := by
    refine List.length_pos.mp ?_
    simp only [List.length_map, List.length_take, List.length_drop]
    omega
  unfold levelKey
  rw [hsplit, List.map_append, joinSep_append _ _ _ hne1 hne2]
  simp only [List.length_append]
  have : (tnMark).length = 2 := rfl
  omega

theorem levelKey_ne (h : NameHierarchy) {i j : Nat} (hne : i ≠ j)
    (hi : i < h.size) (hj : j < h.size) :
    levelKey h i ≠ levelKey h j := by
  rcases Nat.lt_or_ge i j with hlt | hge
  · intro he
    have := levelKey_length_lt h i j hlt hj
    simp [he] at this
  · have hlt : j < i := by omega
    intro he
    have := levelKey_length_lt h j i hlt hi
    simp [he] at this

theorem cacheLookup_append_of_ne (k : Str) (l₁ l₂ : List (Str × Int))
    (h : ∀ p ∈ l₁, p.1 ≠ k) :
    cacheLookup k (l₁ ++ l₂) = cacheLookup k l₂ := by
  induction l₁ with
  | nil => rfl
  | cons p l₁ ih =>
    cases p with
    | mk k' v =>
      have hk' : k' ≠ k := h (k', v) (by simp)
      simp only [List.cons_append, cacheLookup, if_neg hk']
      exact ih (fun q hq => h q (by simp [hq]))

theorem add_if_not_existing_miss (db : DB) (name : Str) (t : NodeType)
    (h : cacheLookup name db.name_cache = none) :
    add_if_not_existing db name t =
      (db.nextId, { db with
        nextId := db.nextId + 1,
        nodes := db.nodes ++ [⟨db.nextId, t, name⟩],
        name_cache := (name, db.nextId) :: db.name_cache }) := by
  simp [add_if_not_existing, h, elementNew]

theorem add_if_not_existing_hit (db : DB) (name : Str) (t : NodeType) (id : Int)
    (h : cacheLookup name db.name_cache = some id) :
    add_if_not_existing db name t = (id, db) := by
  simp [add_if_not_existing, h]

theorem range_succ_map_shift {α : Type} (f g : Nat → α) (n : Nat)
    (h0 : ∀ j, g (j + 1) = f j) :
    (List.range (n + 1)).map g = g 0 :: (List.range n).map f := by
  rw [List.range_succ_eq_map, List.map_cons, List.map_map]
  exact congrArg _ (List.map_congr_left (fun j _ => h0 j))


theorem internLevels_fresh (h : NameHierarchy) :
    ∀ (n k : Nat) (db : DB), k + n ≤ h.size →
    (∀ i, k ≤ i → i < k + n → cacheLookup (levelKey h i) db.name_cache = none) →
    internLevels h (List.range' k n) db =
      (.ok (idSpan db.nextId n),
       { db with
         nextId := db.nextId + (n : Int),
         nodes := db.nodes ++ nodeSpan h db.nextId k n,
         name_cache := (cacheSpan h db.nextId k n).reverse ++ db.name_cache }) := by
  intro n
  induction n with
  | zero =>
    intro k db _ _
    simp [internLevels, List.range', idSpan, nodeSpan, cacheSpan]
  | succ n ih =>
    intro k db hkn hf
    have hk : k < h.size := by omega
    have hkey := serialize_range_zero h k hk
    have hmiss := hf k (le_refl k) (by omega)
    have hrange : List.range' k (n + 1) = k :: List.range' (k + 1) n := rfl
    rw [hrange]
    simp only [internLevels, hkey, add_if_not_existing_miss db _ _ hmiss]
    have hf' : ∀ i, k + 1 ≤ i → i < (k + 1) + n →
        cacheLookup (levelKey h i)
          ((levelKey h k, db.nextId) :: db.name_cache) = none := by
      intro i h1 h2
      have hne := levelKey_ne h (i := k) (j := i) (by omega) hk (by omega)
      simp only [cacheLookup, if_neg hne]
      exact hf i (by omega) (by omega)
    rw [ih (k + 1) _ (by omega) hf']
    simp only [idSpan, nodeSpan, cacheSpan, List.reverse_cons, List.append_assoc,
      List.cons_append, List.singleton_append, List.nil_append,
      Prod.mk.injEq, Except.ok.injEq, DB.mk.injEq, true_and, and_true]
    push_cast
    ring

theorem idSpan_length : ∀ (n : Nat) (base : Int), (idSpan base n).length = n := by
  intro n
  induction n with
  | zero => intro base; rfl
  | succ n ih => intro base; simp [idSpan, ih]

theorem idSpan_succ_concat : ∀ (n : Nat) (base : Int),
    idSpan base (n + 1) = idSpan base n ++ [base + (n : Int)] := by
  intro n
  induction n with
  | zero => intro base; simp [idSpan]
  | succ m ih =>
    intro base
    calc idSpan base (m + 2) = base :: idSpan (base + 1) (m + 1) := rfl
      _ = base :: (idSpan (base + 1) m ++ [(base + 1) + (m : Int)]) := by rw [ih]
      _ = (base :: idSpan (base + 1) m) ++ [base + ((m + 1 : Nat) : Int)] := by
          have harith : (base + 1) + (m : Int) = base + ((m + 1 : Nat) : Int) := by
            push_cast; ring
          simp [harith]
      _ = idSpan base (m + 1) ++ [base + ((m + 1 : Nat) : Int)] := rfl

theorem idSpan_getLast? (n : Nat) (base : Int) (hn : 0 < n) :
    (idSpan base n).getLast? = some (base + ((n - 1 : Nat) : Int)) := by
  cases n with
  | zero => omega
  | succ m => rw [idSpan_succ_concat, List.getLast?_concat]; simp

theorem idSpan_getD : ∀ (n : Nat) (base : Int) (j : Nat), j < n →
    (idSpan base n).getD j 0 = base + (j : Int) := by
  intro n
  induction n with
  | zero => intro base j hj; omega
  | succ m ih =>
    intro base j hj
    cases j with
    | zero => simp [idSpan]
    | succ j =>
      have := ih (base + 1) j (by omega)
      simp only [idSpan, List.getD_cons_succ, this]
      push_cast; ring

theorem nodeSpan_length (h : NameHierarchy) : ∀ (n : Nat) (base : Int) (k : Nat),
    (nodeSpan h base k n).length = n := by
  intro n
  induction n with
  | zero => intro base k; rfl
  | succ n ih => intro base k; simp [nodeSpan, ih]

theorem nodeSpan_getD (h : NameHierarchy) : ∀ (n : Nat) (base : Int) (k j : Nat), j < n →
    (nodeSpan h base k n).getD j ⟨0, .NodeSymbol, []⟩ =
      ⟨base + (j : Int), .NodeSymbol, levelKey h (k + j)⟩ := by
  intro n
  induction n with
  | zero => intro base k j hj; omega
  | succ m ih =>
    intro base k j hj
    cases j with
    | zero => simp [nodeSpan]
    | succ j =>
      have hrec := ih (base + 1) (k + 1) j (by omega)
      have h1 : base + 1 + (j : Int) = base + ((j + 1 : Nat) : Int) := by push_cast; ring
      have h2 : k + 1 + j = k + (j + 1) := by omega
      simp only [nodeSpan, List.getD_cons_succ, hrec, h1, h2]

theorem edgeSpan_length : ∀ (n : Nat) (ebase a : Int),
    (edgeSpan ebase a n).length = n := by
  intro n
  induction n with
  | zero => intro ebase a; rfl
  | succ n ih => intro ebase a; simp [edgeSpan, ih]

theorem edgeSpan_getD : ∀ (n : Nat) (ebase a : Int) (j : Nat), j < n →
    (edgeSpan ebase a n).getD j ⟨0, .Member, 0, 0⟩ =
      ⟨ebase + (j : Int), .Member, a + (j : Int), a + (j : Int) + 1⟩ := by
  intro n
  induction n with
  | zero => intro ebase a j hj; omega
  | succ m ih =>
    intro ebase a j hj
    cases j with
    | zero => simp [edgeSpan]
    | succ j =>
      have hrec := ih (ebase + 1) (a + 1) j (by omega)
      have h1 : ebase + 1 + (j : Int) = ebase + ((j + 1 : Nat) : Int) := by push_cast; ring
      have h2 : a + 1 + (j : Int) = a + ((j + 1 : Nat) : Int) := by push_cast; ring
      simp only [edgeSpan, List.getD_cons_succ, hrec, h1, h2]

theorem edgeSpan_member : ∀ (n : Nat) (ebase a : Int),
    ∀ e ∈ edgeSpan ebase a n, e.type_ = EdgeType.Member := by
  intro n
  induction n with
  | zero => intro ebase a e he; simp [edgeSpan] at he
  | succ n ih =>
    intro ebase a e he
    rcases List.mem_cons.mp he with rfl | he'
    · rfl
    · exact ih (ebase + 1) (a + 1) e he'

theorem addMemberEdges_idSpan : ∀ (n : Nat) (a : Int) (db : DB),
    addMemberEdges (idSpan a (n + 1)) db =
      { db with
        nextId := db.nextId + (n : Int),
        edges := db.edges ++ edgeSpan db.nextId a n } := by
  intro n
  induction n with
  | zero => intro a db; simp [idSpan, addMemberEdges, edgeSpan]
  | succ n ih =>
    intro a db
    have hspan : idSpan a (n + 2) = a :: (a + 1) :: idSpan (a + 1 + 1) n := rfl
    rw [hspan]
    simp only [addMemberEdges, elementNew]
    rw [show ((a + 1) :: idSpan (a + 1 + 1) n) = idSpan (a + 1) (n + 1) from rfl]
    rw [ih (a + 1) _]
    simp only [edgeSpan, List.append_assoc, List.cons_append, List.singleton_append,
      DB.mk.injEq, true_and, and_true]
    refine ⟨by push_cast; ring, rfl⟩

theorem addMemberEdges_general : ∀ (ids : List Int) (db : DB),
    ∃ newEdges : List EdgeRow,
      addMemberEdges ids db =
        { db with
          nextId := db.nextId + ((ids.length - 1 : Nat) : Int),
          edges := db.edges ++ newEdges } ∧
      newEdges.length = ids.length - 1 ∧
      ∀ e ∈ newEdges, e.type_ = EdgeType.Member := by
  intro ids
  induction ids with
  | nil => intro db; exact ⟨[], by simp [addMemberEdges], by simp, by simp⟩
  | cons a tail ih =>
    intro db
    cases tail with
    | nil => exact ⟨[], by simp [addMemberEdges], by simp, by simp⟩
    | cons b rest =>
      obtain ⟨ne, heq, hlen, hmem⟩ := ih
        { db with
          nextId := db.nextId + 1,
          edges := db.edges ++ [⟨db.nextId, .Member, a, b⟩] }
      refine ⟨⟨db.nextId, .Member, a, b⟩ :: ne, ?_, by simp [hlen], ?_⟩
      · simp only [addMemberEdges, elementNew]
        rw [heq]
        simp only [List.append_assoc, List.cons_append, List.singleton_append,
          DB.mk.injEq, true_and, and_true]
        refine ⟨by push_cast; simp; ring, rfl⟩
      · intro e he
        rcases List.mem_cons.mp he with rfl | he'
        · rfl
        · exact hmem e he'

theorem internLevels_hits (h : NameHierarchy) :
    ∀ (n k : Nat) (db : DB) (ids : List Int), k + n ≤ h.size → ids.length = n →
    (∀ j, j < n → cacheLookup (levelKey h (k + j)) db.name_cache = some (ids.getD j 0)) →
    internLevels h (List.range' k n) db = (.ok ids, db) := by
  intro n
  induction n with
  | zero =>
    intro k db ids _ hlen _
    have : ids = [] := List.length_eq_zero.mp hlen
    subst this
    simp [List.range', internLevels]
  | succ n ih =>
    intro k db ids hkn hlen hl
    cases ids with
    | nil => simp at hlen
    | cons x ids' =>
      have hk : k < h.size := by omega
      have hx := hl 0 (by omega)
      rw [show List.range' k (n + 1) = k :: List.range' (k + 1) n from rfl]
      simp only [internLevels, serialize_range_zero h k hk]
      rw [add_if_not_existing_hit db _ _ x (by simpa using hx)]
      rw [ih (k + 1) db ids' (by omega) (by simpa using hlen) ?_]
      intro j hj
      have hstep := hl (j + 1) (by omega)
      have harg : k + (j + 1) = (k + 1) + j := by omega
      rw [harg] at hstep
      simpa using hstep

theorem internLevels_post (h : NameHierarchy) :
    ∀ (n k : Nat) (db : DB) (ids : List Int) (db' : DB),
    k + n ≤ h.size →
    internLevels h (List.range' k n) db = (.ok ids, db') →
    ids.length = n ∧
    (∀ j, j < n → cacheLookup (levelKey h (k + j)) db'.name_cache = some (ids.getD j 0)) ∧
    (∃ newc, db'.name_cache = newc ++ db.name_cache ∧
      ∀ q ∈ newc, ∃ i, k ≤ i ∧ i < k + n ∧ q.1 = levelKey h i) := by
  intro n
  induction n with
  | zero =>
    intro k db ids db' _ heq
    simp only [List.range', internLevels, Prod.mk.injEq, Except.ok.injEq] at heq
    obtain ⟨h1, h2⟩ := heq
    subst h1
    subst h2
    exact ⟨rfl, by omega, ⟨[], by simp, by simp⟩⟩
  | succ n ih =>
    intro k db ids db' hkn heq
    have hk : k < h.size := by omega
    rw [show List.range' k (n + 1) = k :: List.range' (k + 1) n from rfl] at heq
    simp only [internLevels, serialize_range_zero h k hk] at heq
    cases hc : cacheLookup (levelKey h k) db.name_cache with
    | some id =>
      rw [add_if_not_existing_hit db _ _ id hc] at heq
      cases hrec : internLevels h (List.range' (k + 1) n) db with
      | mk res db₂ =>
        rw [hrec] at heq
        cases res with
        | error e => simp at heq
        | ok ids₂ =>
          simp only [Prod.mk.injEq, Except.ok.injEq] at heq
          obtain ⟨h1, h2⟩ := heq
          subst h1
          subst h2
          obtain ⟨hlen, hlook, newc, hcache, hkeys⟩ := ih (k + 1) db ids₂ db₂ (by omega) hrec
          refine ⟨by simp [hlen], ?_, ⟨newc, hcache, ?_⟩⟩
          · intro j hj
            cases j with
            | zero =>
              rw [hcache, cacheLookup_append_of_ne _ _ _ ?_]
              · simpa using hc
              · intro q hq
                obtain ⟨i, hi1, hi2, hqi⟩ := hkeys q hq
                rw [hqi]
                exact levelKey_ne h (by omega) (by omega) hk
            | succ j =>
              have hstep := hlook j (by omega)
              have harg : (k + 1) + j = k + (j + 1) := by omega
              rw [harg] at hstep
              simpa using hstep
          · intro q hq
            obtain ⟨i, hi1, hi2, hqi⟩ := hkeys q hq
            exact ⟨i, by omega, by omega, hqi⟩
    | none =>
      rw [add_if_not_existing_miss db _ _ hc] at heq
      cases hrec : internLevels h (List.range' (k + 1) n)
          { db with
            nextId := db.nextId + 1,
            nodes := db.nodes ++ [⟨db.nextId, .NodeSymbol, levelKey h k⟩],
            name_cache := (levelKey h k, db.nextId) :: db.name_cache } with
      | mk res db₂ =>
        rw [hrec] at heq
        cases res with
        | error e => simp at heq
        | ok ids₂ =>
          simp only [Prod.mk.injEq, Except.ok.injEq] at heq
          obtain ⟨h1, h2⟩ := heq
          subst h1
          subst h2
          obtain ⟨hlen, hlook, newc, hcache, hkeys⟩ := ih (k + 1) _ ids₂ db₂ (by omega) hrec
          simp only at hcache
          refine ⟨by simp [hlen], ?_, ?_⟩
          · intro j hj
            cases j with
            | zero =>
              rw [hcache, cacheLookup_append_of_ne _ _ _ ?_]
              · simp [cacheLookup]
              · intro q hq
                obtain ⟨i, hi1, hi2, hqi⟩ := hkeys q hq
                rw [hqi]
                exact levelKey_ne h (by omega) (by omega) hk
            | succ j =>
              have hstep := hlook j (by omega)
              have harg : (k + 1) + j = k + (j + 1) := by omega
              rw [harg] at hstep
              simpa using hstep
          · refine ⟨newc ++ [(levelKey h k, db.nextId)], by simp [hcache], ?_⟩
            intro q hq
            rcases List.mem_append.mp hq with hq' | hq'
            · obtain ⟨i, hi1, hi2, hqi⟩ := hkeys q hq'
              exact ⟨i, by omega, by omega, hqi⟩
            · have : q = (levelKey h k, db.nextId) := by simpa using hq'
              subst this
              exact ⟨k, le_refl k, by omega, rfl⟩

theorem record_symbol_eq_full (db : DB) (h : NameHierarchy) (ids : List Int)
    (dbA : DB) (last : Int)
    (hint : internLevels h (List.range h.size) db = (.ok ids, dbA))
    (hlast : ids.getLast? = some last) :
    record_symbol db h = (.ok last, addMemberEdges ids dbA) := by
  unfold record_symbol
  rw [hint]
  show (match ids.getLast? with
    | some l => ((Except.ok l : Except Err Int), addMemberEdges ids dbA)
    | none => (.error .PanicEmpty, addMemberEdges ids dbA)) = _
  rw [hlast]

/-- C3: when the graph builder first sees a hierarchy of size N (no
prefix key cached), it creates exactly N new nodes — one per prefix key,
with consecutive ids and the generic `NodeSymbol` kind — and exactly N−1
`Member` edges, each from the node of level i to the node of level i+1 in
index order, and returns the id of the deepest (full-name) node. -/
theorem record_symbol_first_sight (db : DB) (h : NameHierarchy)
    (hne : h.elements ≠ [])
    (hf : ∀ i, i < h.size → cacheLookup (levelKey h i) db.name_cache = none) :
    ∃ db' : DB,
      record_symbol db h = (.ok (db.nextId + ((h.size - 1 : Nat) : Int)), db') ∧
      db'.nodes = db.nodes ++ nodeSpan h db.nextId 0 h.size ∧
      (nodeSpan h db.nextId 0 h.size).length = h.size ∧
      (∀ i, i < h.size → (nodeSpan h db.nextId 0 h.size).getD i ⟨0, .NodeSymbol, []⟩ =
        ⟨db.nextId + (i : Int), .NodeSymbol, levelKey h i⟩) ∧
      db'.edges = db.edges ++ edgeSpan (db.nextId + (h.size : Int)) db.nextId (h.size - 1) ∧
      (edgeSpan (db.nextId + (h.size : Int)) db.nextId (h.size - 1)).length = h.size - 1 ∧
      (∀ i, i < h.size - 1 →
        (edgeSpan (db.nextId + (h.size : Int)) db.nextId (h.size - 1)).getD i
            ⟨0, .Member, 0, 0⟩ =
          ⟨db.nextId + (h.size : Int) + (i : Int), EdgeType.Member,
           db.nextId + (i : Int), db.nextId + (i : Int) + 1⟩) := by
  have hN : 0 < h.size := by
    unfold NameHierarchy.size
    exact List.length_pos.mpr hne
  have hint : internLevels h (List.range h.size) db =
      (.ok (idSpan db.nextId h.size),
       { db with
         nextId := db.nextId + (h.size : Int),
         nodes := db.nodes ++ nodeSpan h db.nextId 0 h.size,
         name_cache := (cacheSpan h db.nextId 0 h.size).reverse ++ db.name_cache }) := by
    rw [List.range_eq_range']
    exact internLevels_fresh h h.size 0 db (by omega) (fun i _ hi => hf i (by omega))
  have hlast := idSpan_getLast? h.size db.nextId hN
  have hcall := record_symbol_eq_full db h _ _ _ hint hlast
  obtain ⟨m, hm⟩ : ∃ m, h.size = m + 1 := ⟨h.size - 1, by omega⟩
  rw [hm] at hcall
  rw [addMemberEdges_idSpan m db.nextId _] at hcall
  simp only at hcall
  rw [hm]
  refine ⟨_, hcall, ?_, ?_, ?_, ?_, ?_, ?_⟩
  · rfl
  · exact nodeSpan_length h _ _ _
  · intro i hi
    have := nodeSpan_getD h (m + 1) db.nextId 0 i hi
    simpa using this
  · simp [Nat.add_sub_cancel]
  · exact edgeSpan_length _ _ _
  · intro i hi
    exact edgeSpan_getD (m + 1 - 1) _ db.nextId i hi

/-- Witness for `record_symbol_first_sight` at the empty store and a
concrete two-element hierarchy. -/
theorem record_symbol_first_sight_witness :
    ∃ db' : DB,
      record_symbol db0 hW = (.ok (db0.nextId + ((hW.size - 1 : Nat) : Int)), db') ∧
      db'.nodes = db0.nodes ++ nodeSpan hW db0.nextId 0 hW.size ∧
      (nodeSpan hW db0.nextId 0 hW.size).length = hW.size ∧
      (∀ i, i < hW.size → (nodeSpan hW db0.nextId 0 hW.size).getD i ⟨0, .NodeSymbol, []⟩ =
        ⟨db0.nextId + (i : Int), .NodeSymbol, levelKey hW i⟩) ∧
      db'.edges = db0.edges ++ edgeSpan (db0.nextId + (hW.size : Int)) db0.nextId (hW.size - 1) ∧
      (edgeSpan (db0.nextId + (hW.size : Int)) db0.nextId (hW.size - 1)).length = hW.size - 1 ∧
      (∀ i, i < hW.size - 1 →
        (edgeSpan (db0.nextId + (hW.size : Int)) db0.nextId (hW.size - 1)).getD i
            ⟨0, .Member, 0, 0⟩ =
          ⟨db0.nextId + (hW.size : Int) + (i : Int), EdgeType.Member,
           db0.nextId + (i : Int), db0.nextId + (i : Int) + 1⟩) :=
  record_symbol_first_sight db0 hW (by decide) (by decide)

/-- C4: calling the graph builder a second time with the identical
hierarchy (after any successful first call in the same session) returns
the same leaf id, creates no new node and no new cache entry, but
unconditionally creates N−1 fresh `Member` edges again. -/
theorem record_symbol_repeat (db : DB) (h : NameHierarchy) (hne : h.elements ≠ [])
    (leaf : Int) (db₁ : DB)
    (hfirst : record_symbol db h = (.ok leaf, db₁)) :
    ∃ (db₂ : DB) (newEdges : List EdgeRow),
      record_symbol db₁ h = (.ok leaf, db₂) ∧
      db₂.nodes = db₁.nodes ∧
      db₂.name_cache = db₁.name_cache ∧
      db₂.edges = db₁.edges ++ newEdges ∧
      newEdges.length = h.size - 1 ∧
      (∀ e ∈ newEdges, e.type_ = EdgeType.Member) := by
  unfold record_symbol at hfirst
  split at hfirst
  · simp at hfirst
  · rename_i ids dbA hint
    cases hlast : ids.getLast? with
    | none =>
      rw [hlast] at hfirst
      simp at hfirst
    | some last =>
      rw [hlast] at hfirst
      simp only [Prod.mk.injEq, Except.ok.injEq] at hfirst
      obtain ⟨h1, h2⟩ := hfirst
      subst h1
      obtain ⟨hlen, hlook, -⟩ := internLevels_post h h.size 0 db ids dbA (by omega)
        (by rwa [List.range_eq_range'] at hint)
      obtain ⟨ne₁, heq₁, -, -⟩ := addMemberEdges_general ids dbA
      have hcache₁ : db₁.name_cache = dbA.name_cache := by
        rw [← h2, heq₁]
      have hint₂ : internLevels h (List.range h.size) db₁ = (.ok ids, db₁) := by
        rw [List.range_eq_range']
        refine internLevels_hits h h.size 0 db₁ ids (by omega) hlen ?_
        intro j hj
        rw [hcache₁]
        simpa using hlook j hj
      have hcall₂ := record_symbol_eq_full db₁ h ids db₁ last hint₂ hlast
      obtain ⟨ne₂, heq₂, hlen₂, hmem₂⟩ := addMemberEdges_general ids db₁
      refine ⟨_, ne₂, hcall₂, ?_, ?_, ?_, ?_, hmem₂⟩
      · rw [heq₂]
      · rw [heq₂]
      · rw [heq₂]
      · rw [hlen₂, hlen]

/-- Witness for `record_symbol_repeat`: a first call on the empty store,
then the second call on the resulting state. -/
theorem record_symbol_repeat_witness :
    ∃ (db₂ : DB) (newEdges : List EdgeRow),
      record_symbol (record_symbol db0 hW).2 hW = (.ok 2, db₂) ∧
      db₂.nodes = (record_symbol db0 hW).2.nodes ∧
      db₂.name_cache = (record_symbol db0 hW).2.name_cache ∧
      db₂.edges = (record_symbol db0 hW).2.edges ++ newEdges ∧
      newEdges.length = hW.size - 1 ∧
      (∀ e ∈ newEdges, e.type_ = EdgeType.Member) :=
  record_symbol_repeat db0 hW (by decide) 2 (record_symbol db0 hW).2 (by rfl)

/-! ## Node-builder commit analysis (C5, C6) -/

theorem add_if_not_existing_symbols (db : DB) (name : Str) (t : NodeType) :
    (add_if_not_existing db name t).2.symbols = db.symbols := by
  cases hc : cacheLookup name db.name_cache with
  | none => simp [add_if_not_existing, elementNew, hc]
  | some id => simp [add_if_not_existing, hc]

theorem internLevels_symbols (h : NameHierarchy) :
    ∀ (is : List Nat) (db : DB), (internLevels h is db).2.symbols = db.symbols := by
  intro is
  induction is with
  | nil => intro db; rfl
  | cons i is ih =>
    intro db
    unfold internLevels
    cases hs : h.serialize_range 0 (i + 1) with
    | error e => simp [hs]
    | ok key =>
      simp only [hs]
      cases hr : internLevels h is (add_if_not_existing db key .NodeSymbol).2 with
      | mk res db' =>
        have hsym : db'.symbols = db.symbols := by
          have hih := ih (add_if_not_existing db key .NodeSymbol).2
          rw [hr] at hih
          rw [hih, add_if_not_existing_symbols]
        cases res <;> simp [hr, hsym]

theorem addMemberEdges_symbols (ids : List Int) (db : DB) :
    (addMemberEdges ids db).symbols = db.symbols := by
  obtain ⟨ne, heq, -, -⟩ := addMemberEdges_general ids db
  rw [heq]

theorem record_symbol_symbols (db : DB) (h : NameHierarchy) :
    (record_symbol db h).2.symbols = db.symbols := by
  unfold record_symbol
  cases hr : internLevels h (List.range h.size) db with
  | mk res dbA =>
    have hA : dbA.symbols = db.symbols := by
      have hfr := internLevels_symbols h (List.range h.size) db
      rw [hr] at hfr
      exact hfr
    cases res with
    | error e => simpa using hA
    | ok ids =>
      cases hl : ids.getLast? <;> simp [hl, addMemberEdges_symbols, hA]

theorem record_symbol_kind_symbols (db : DB) (id : Int) (t : NodeType) :
    (record_symbol_kind db id t).symbols = db.symbols := by
  unfold record_symbol_kind
  cases hg : nodeGet db id <;> simp [hg]

theorem full_record_node_step_symbols (db : DB) (ne : NameElement) (delim : Str)
    (parent_id : Option Int) :
    (full_record_node_step db ne delim parent_id).2.symbols = db.symbols := by
  unfold full_record_node_step
  cases parent_id with
  | none =>
    cases hn : NameHierarchy.new delim [ne] with
    | error e => simp [hn]
    | ok h => simp [hn, record_symbol_symbols]
  | some pid =>
    cases hg : nodeGet db pid with
    | none => simp [hg]
    | some node =>
      cases hd : NameHierarchy.deserialize_name node.name with
      | error e => simp [hg, hd]
      | ok h => simp [hg, hd, record_symbol_symbols]

theorem symbolGet_congr {db₁ db₂ : DB} (id : Int)
    (h : db₁.symbols = db₂.symbols) : symbolGet db₁ id = symbolGet db₂ id := by
  unfold symbolGet
  rw [h]

theorem find?_map_update (l : List SymbolRow) (id : Int) (kind : SymbolType) :
    (l.map (fun s => if s.id == id then { s with definition_kind := kind } else s)).find?
        (fun s => s.id == id) =
      (l.find? (fun s => s.id == id)).map
        (fun s => { s with definition_kind := kind }) := by
  induction l with
  | nil => rfl
  | cons s l ih =>
    by_cases hid : s.id = id
    · have h1 : (({ id := s.id, definition_kind := kind } : SymbolRow).id == id) = true := by
        simpa using hid
      have h2 : (s.id == id) = true := by simpa using hid
      rw [List.map_cons, if_pos h2]
      simp only [List.find?, h1, h2]
      simp
    · have h2 : (s.id == id) = false := by simpa using hid
      rw [List.map_cons, if_neg (by simpa using hid)]
      simp only [List.find?, h2]
      exact ih

theorem record_symbol_definition_kind_get (db : DB) (id : Int) (kind : SymbolType) :
    symbolGet (record_symbol_definition_kind db id kind) id = some ⟨id, kind⟩ := by
  unfold record_symbol_definition_kind
  cases hg : symbolGet db id with
  | none =>
    simp only [hg]
    unfold symbolGet at hg ⊢
    simp only [List.find?_append, hg, Option.none_or]
    simp
  | some sym =>
    have hg' : db.symbols.find? (fun s => s.id == id) = some sym := hg
    have hbeq := List.find?_some hg'
    have hsid : sym.id = id := by simpa using hbeq
    simp only [hg]
    by_cases hkind : sym.definition_kind = kind
    · rw [if_neg (by simpa using hkind)]
      rw [hg]
      cases sym with
      | mk i k =>
        simp only at hsid hkind
        rw [hsid, hkind]
    · rw [if_pos (by simpa using hkind)]
      unfold symbolGet
      simp only
      rw [find?_map_update]
      unfold symbolGet at hg
      rw [hg]
      cases sym with
      | mk i k =>
        simp only at hsid
        simp [hsid]

theorem record_symbol_definition_kind_skip (db : DB) (id : Int) (kind : SymbolType)
    (h : symbolGet db id = some ⟨id, kind⟩) :
    record_symbol_definition_kind db id kind = db := by
  unfold record_symbol_definition_kind
  rw [h]
  simp

/-- C5: committing a node builder that names a parent id with no node row
fails with `ParentNotFound` carrying that id and performs no writes at
all — the whole store (nodes, edges, symbols, interner cache, everything)
is returned unchanged, since the parent is resolved before any interning. -/
theorem node_commit_parent_not_found (db : DB) (r : NodeRecorderS) (pid : Int)
    (hp : r.parent_id = some pid) (hn : nodeGet db pid = none) :
    r.commit db = (.error (.ParentNotFound pid), db) := by
  unfold NodeRecorderS.commit full_record_node full_record_node_step
  rw [hp]
  simp [hn]

/-- Witness for `node_commit_parent_not_found` at the empty store. -/
theorem node_commit_parent_not_found_witness :
    nrBadParent.commit db0 = (.error (.ParentNotFound 42), db0) :=
  node_commit_parent_not_found db0 nrBadParent 42 (by rfl) (by rfl)

/-- C6 (counterexample): committing a class named `X` with the indexed
flag cleared on the empty store succeeds with leaf id 1, yet no Symbol
Definition Record exists afterwards — so not every node recorded through
the commit path has one. -/
theorem symbol_definition_upsert_cx :
    (nrNotIndexed.commit db0).1 = .ok 1 ∧ (nrNotIndexed.commit db0).2.symbols = [] := by
  exact ⟨by decide, by decide⟩

/-- C6 (amended): a node recorded through the node-builder commit path
with the indexed flag set ends up with a Symbol Definition Record upserted
to `Explicit` (an existing different value is overwritten; an existing
equal value causes no write); when the caller does not mark it indexed the
symbol table is left entirely at its previous value (in particular no
record is created). -/
theorem symbol_definition_upsert :
    (∀ (db : DB) (r : NodeRecorderS) (leaf : Int) (db' : DB),
      r.is_indexed = false → r.commit db = (.ok leaf, db') →
      db'.symbols = db.symbols) ∧
    (∀ (db : DB) (r : NodeRecorderS) (leaf : Int) (db' : DB),
      r.is_indexed = true → r.commit db = (.ok leaf, db') →
      symbolGet db' leaf = some ⟨leaf, .Explicit⟩) ∧
    (∀ (db : DB) (id : Int),
      symbolGet db id = some ⟨id, .Explicit⟩ →
      record_symbol_definition_kind db id .Explicit = db) := by
  refine ⟨?_, ?_, fun db id h => record_symbol_definition_kind_skip db id .Explicit h⟩
  · intro db r leaf db' hidx hcommit
    unfold NodeRecorderS.commit full_record_node at hcommit
    rw [hidx] at hcommit
    simp only [Bool.false_eq_true, reduceIte] at hcommit
    split at hcommit
    · simp at hcommit
    · rename_i obj_id dbA hstep
      simp only [Prod.mk.injEq, Except.ok.injEq] at hcommit
      obtain ⟨h1, h2⟩ := hcommit
      subst h1
      subst h2
      rw [record_symbol_kind_symbols]
      have hfr := full_record_node_step_symbols db ⟨some r.pre, some r.name, some r.post⟩
        r.delimiter r.parent_id
      rw [hstep] at hfr
      exact hfr
  · intro db r leaf db' hidx hcommit
    unfold NodeRecorderS.commit full_record_node at hcommit
    rw [hidx] at hcommit
    simp only [reduceIte] at hcommit
    split at hcommit
    · simp at hcommit
    · rename_i obj_id dbA hstep
      simp only [Prod.mk.injEq, Except.ok.injEq] at hcommit
      obtain ⟨h1, h2⟩ := hcommit
      subst h1
      subst h2
      exact record_symbol_definition_kind_get _ obj_id .Explicit

/-- Witness for `symbol_definition_upsert`: an indexed commit on the
empty store leaves the leaf with an `Explicit` record, and the upsert is
skipped on an equal existing value. -/
theorem symbol_definition_upsert_witness :
    symbolGet (nrIndexed.commit db0).2 1 = some ⟨1, .Explicit⟩ ∧
    record_symbol_definition_kind (nrIndexed.commit db0).2 1 .Explicit
      = (nrIndexed.commit db0).2 :=
  ⟨symbol_definition_upsert.2.1 db0 nrIndexed 1 (nrIndexed.commit db0).2 (by rfl) (by rfl),
   symbol_definition_upsert.2.2 (nrIndexed.commit db0).2 1 (by decide)⟩

/-! ## Source-location builder commit (C7) -/

/-- C7: with symbol id, file id, start and end positions all set (the
`-1` sentinel means unset), commit fails with the ordering-invariant
error exactly when `start_line > end_line`, or `start_line = end_line`
and `start_column ≥ end_column`; otherwise it succeeds and writes exactly
one Source Location row (under a fresh location id) plus one Occurrence
row linking it to the symbol id. -/
theorem source_location_commit_spec (r : SourceLocationRecorderS) (db : DB)
    (hs : r.symbol_id ≠ -1) (hf : r.file_id ≠ -1)
    (h1 : r.start_line ≠ -1) (h2 : r.start_column ≠ -1)
    (h3 : r.end_line ≠ -1) (h4 : r.end_column ≠ -1) :
    (r.start_line > r.end_line ∨ (r.start_line = r.end_line ∧ r.start_column ≥ r.end_column) →
      r.commit db = (.error (.SourceLocationMsg ("invalid source range")), db)) ∧
    (¬ (r.start_line > r.end_line ∨ (r.start_line = r.end_line ∧ r.start_column ≥ r.end_column)) →
      r.commit db = (.ok (), { db with
        nextLocId := db.nextLocId + 1,
        locations := db.locations ++
          [⟨db.nextLocId, r.file_id, r.start_line, r.start_column,
            r.end_line, r.end_column, r.location_kind⟩],
        occurrences := db.occurrences ++ [⟨r.symbol_id, db.nextLocId⟩] })) := by
  constructor
  · intro hbad
    unfold SourceLocationRecorderS.commit
    rw [if_neg hs, if_neg hf, if_neg (by simp [h1, h2]), if_neg (by simp [h3, h4]),
      if_pos hbad]
  · intro hgood
    unfold SourceLocationRecorderS.commit record_source_location
    rw [if_neg hs, if_neg hf, if_neg (by simp [h1, h2]), if_neg (by simp [h3, h4]),
      if_neg hgood, if_neg hgood]

/-- Witness for `source_location_commit_spec`: `start = (5,10)`,
`end = (5,10)` fails with the ordering-invariant error, while
`start = (5,10)`, `end = (5,11)` succeeds and writes one location and one
occurrence. -/
theorem source_location_commit_spec_witness :
    slrDegenerate.commit db0 = (.error (.SourceLocationMsg ("invalid source range")), db0) ∧
    slrValid.commit db0 = (.ok (), { db0 with
      nextLocId := db0.nextLocId + 1,
      locations := db0.locations ++
        [⟨db0.nextLocId, slrValid.file_id, slrValid.start_line, slrValid.start_column,
          slrValid.end_line, slrValid.end_column, slrValid.location_kind⟩],
      occurrences := db0.occurrences ++ [⟨slrValid.symbol_id, db0.nextLocId⟩] }) :=
  ⟨(source_location_commit_spec slrDegenerate db0 (by decide) (by decide) (by decide)
      (by decide) (by decide) (by decide)).1 (by decide),
   (source_location_commit_spec slrValid db0 (by decide) (by decide) (by decide)
      (by decide) (by decide) (by decide)).2 (by decide)⟩

/-! ## Unsolved-symbol builder commit (C8) -/

theorem record_symbol_unsolved (db : DB) :
    ∃ u dbA,
      record_symbol db unsolvedHierarchy = (.ok u, dbA) ∧
      cacheLookup unsolvedKey dbA.name_cache = some u ∧
      db.nextId ≤ dbA.nextId ∧
      dbA.edges = db.edges ∧ dbA.locations = db.locations ∧
      dbA.occurrences = db.occurrences ∧ dbA.nextLocId = db.nextLocId ∧
      (∀ v, cacheLookup unsolvedKey db.name_cache = some v → u = v) := by
  have hkey : unsolvedHierarchy.serialize_range 0 (0 + 1) = .ok unsolvedKey := by decide
  cases hc : cacheLookup unsolvedKey db.name_cache with
  | some u =>
    have hadd := add_if_not_existing_hit db unsolvedKey .NodeSymbol u hc
    have hint : internLevels unsolvedHierarchy (List.range unsolvedHierarchy.size) db
        = (.ok [u], db) := by
      show internLevels unsolvedHierarchy [0] db = (.ok [u], db)
      simp only [internLevels, hkey, hadd]
    have hcall := record_symbol_eq_full db unsolvedHierarchy [u] db u hint rfl
    refine ⟨u, db, ?_, hc, le_refl _, rfl, rfl, rfl, rfl, ?_⟩
    · simpa [addMemberEdges] using hcall
    · intro v hv
      exact Option.some.inj hv
  | none =>
    have hadd := add_if_not_existing_miss db unsolvedKey .NodeSymbol hc
    have hint : internLevels unsolvedHierarchy (List.range unsolvedHierarchy.size) db
        = (.ok [db.nextId], { db with
            nextId := db.nextId + 1,
            nodes := db.nodes ++ [⟨db.nextId, .NodeSymbol, unsolvedKey⟩],
            name_cache := (unsolvedKey, db.nextId) :: db.name_cache }) := by
      show internLevels unsolvedHierarchy [0] db = _
      simp only [internLevels, hkey, hadd]
    have hcall := record_symbol_eq_full db unsolvedHierarchy [db.nextId] _ db.nextId hint rfl
    refine ⟨db.nextId, { db with
        nextId := db.nextId + 1,
        nodes := db.nodes ++ [⟨db.nextId, .NodeSymbol, unsolvedKey⟩],
        name_cache := (unsolvedKey, db.nextId) :: db.name_cache },
      ?_, ?_, ?_, rfl, rfl, rfl, rfl, ?_⟩
    · simpa [addMemberEdges] using hcall
    · simp [cacheLookup]
    · simp
    · intro v hv
      simp at hv

theorem unsolved_commit_char (r : UnsolvedSymbolRecorderS) (t : EdgeType) (db : DB)
    (hv : ValidUnsolved r t) :
    ∃ u dbA,
      record_symbol db unsolvedHierarchy = (.ok u, dbA) ∧
      cacheLookup unsolvedKey dbA.name_cache = some u ∧
      db.nextId ≤ dbA.nextId ∧
      dbA.edges = db.edges ∧ dbA.locations = db.locations ∧
      dbA.occurrences = db.occurrences ∧ dbA.nextLocId = db.nextLocId ∧
      (∀ v, cacheLookup unsolvedKey db.name_cache = some v → u = v) ∧
      r.commit db = (.ok dbA.nextId, { dbA with
        nextId := dbA.nextId + 1,
        edges := dbA.edges ++ [⟨dbA.nextId, t, r.symbol_id, u⟩],
        nextLocId := dbA.nextLocId + 1,
        locations := dbA.locations ++ [⟨dbA.nextLocId, r.file_id, r.start_line,
          r.start_column, r.end_line, r.end_column, .Unsolved⟩],
        occurrences := dbA.occurrences ++ [⟨dbA.nextId, dbA.nextLocId⟩] }) := by
  obtain ⟨hs, hf, h1, h2, h3, h4, hrange, hrt⟩ := hv
  obtain ⟨u, dbA, hrs, hcache, hle, hed, hloc, hocc, hnl, hcond⟩ := record_symbol_unsolved db
  refine ⟨u, dbA, hrs, hcache, hle, hed, hloc, hocc, hnl, hcond, ?_⟩
  unfold UnsolvedSymbolRecorderS.commit
  rw [if_neg hs, if_neg hf, if_neg (by simp [h1, h2]), if_neg (by simp [h3, h4]),
    if_neg hrange]
  simp only [hrt]
  have hnew : NameHierarchy.new unknownDelim [⟨none, some ("unsolved symbol".toList), none⟩]
      = Except.ok unsolvedHierarchy := rfl
  simp only [hnew, hrs, elementNew, record_source_location]
  rw [if_neg hrange]

/-- C8: two valid unsolved-symbol commits in the same session resolve to
the same placeholder node (the interner entry for the encoded
one-element `"unsolved symbol"` hierarchy under the `@` namespace), create
two distinct reference edges of the requested types from the respective
caller symbols to that placeholder, plus two distinct `Unsolved` source
locations each tied (by an occurrence row) to its own edge id, and each
commit returns its edge id. -/
theorem unsolved_symbol_sharing (db : DB) (r₁ r₂ : UnsolvedSymbolRecorderS)
    (t₁ t₂ : EdgeType) (hv₁ : ValidUnsolved r₁ t₁) (hv₂ : ValidUnsolved r₂ t₂) :
    ∃ (u e₁ e₂ l₁ l₂ : Int) (db₁ db₂ : DB),
      r₁.commit db = (.ok e₁, db₁) ∧
      r₂.commit db₁ = (.ok e₂, db₂) ∧
      e₁ ≠ e₂ ∧ l₁ ≠ l₂ ∧
      cacheLookup unsolvedKey db₂.name_cache = some u ∧
      EdgeRow.mk e₁ t₁ r₁.symbol_id u ∈ db₂.edges ∧
      EdgeRow.mk e₂ t₂ r₂.symbol_id u ∈ db₂.edges ∧
      OccurrenceRow.mk e₁ l₁ ∈ db₂.occurrences ∧
      OccurrenceRow.mk e₂ l₂ ∈ db₂.occurrences ∧
      SourceLocationRow.mk l₁ r₁.file_id r₁.start_line r₁.start_column r₁.end_line
        r₁.end_column .Unsolved ∈ db₂.locations ∧
      SourceLocationRow.mk l₂ r₂.file_id r₂.start_line r₂.start_column r₂.end_line
        r₂.end_column .Unsolved ∈ db₂.locations := by
  obtain ⟨u, dbA, hrsA, hcacheA, hleA, hedA, hlocA, hoccA, hnlA, hcondA, hc₁⟩ :=
    unsolved_commit_char r₁ t₁ db hv₁
  obtain ⟨u', dbA', hrsA', hcacheA', hleA', hedA', hlocA', hoccA', hnlA', hcondA', hc₂⟩ :=
    unsolved_commit_char r₂ t₂ ({ dbA with
      nextId := dbA.nextId + 1,
      edges := dbA.edges ++ [⟨dbA.nextId, t₁, r₁.symbol_id, u⟩],
      nextLocId := dbA.nextLocId + 1,
      locations := dbA.locations ++ [⟨dbA.nextLocId, r₁.file_id, r₁.start_line,
        r₁.start_column, r₁.end_line, r₁.end_column, .Unsolved⟩],
      occurrences := dbA.occurrences ++ [⟨dbA.nextId, dbA.nextLocId⟩] }) hv₂
  have huu : u' = u := hcondA' u hcacheA
  subst huu
  simp only at hleA' hedA' hlocA' hoccA' hnlA'
  refine ⟨u', dbA.nextId, dbA'.nextId, dbA.nextLocId, dbA'.nextLocId, _, _,
    hc₁, hc₂, ?_, ?_, ?_, ?_, ?_, ?_, ?_, ?_, ?_⟩
  · have : dbA.nextId + 1 ≤ dbA'.nextId := hleA'
    intro he
    omega
  · have : dbA'.nextLocId = dbA.nextLocId + 1 := hnlA'
    intro he
    omega
  · simpa using hcacheA'
  · simp only [hedA']
    simp
  · simp
  · simp only [hoccA']
    simp
  · simp
  · simp only [hlocA']
    simp
  · simp

/-- Witness for `unsolved_symbol_sharing`: two concrete valid commits on
the empty store. -/
theorem unsolved_symbol_sharing_witness :
    ∃ (u e₁ e₂ l₁ l₂ : Int) (db₁ db₂ : DB),
      usrA.commit db0 = (.ok e₁, db₁) ∧
      usrB.commit db₁ = (.ok e₂, db₂) ∧
      e₁ ≠ e₂ ∧ l₁ ≠ l₂ ∧
      cacheLookup unsolvedKey db₂.name_cache = some u ∧
      EdgeRow.mk e₁ .Usage usrA.symbol_id u ∈ db₂.edges ∧
      EdgeRow.mk e₂ .Call usrB.symbol_id u ∈ db₂.edges ∧
      OccurrenceRow.mk e₁ l₁ ∈ db₂.occurrences ∧
      OccurrenceRow.mk e₂ l₂ ∈ db₂.occurrences ∧
      SourceLocationRow.mk l₁ usrA.file_id usrA.start_line usrA.start_column usrA.end_line
        usrA.end_column .Unsolved ∈ db₂.locations ∧
      SourceLocationRow.mk l₂ usrB.file_id usrB.start_line usrB.start_column usrB.end_line
        usrB.end_column .Unsolved ∈ db₂.locations :=
  unsolved_symbol_sharing db0 usrA usrB .Usage .Call (by decide) (by decide)

/-! ## File recording (C9) -/

theorem add_if_not_existing_files (db : DB) (name : Str) (t : NodeType) :
    (add_if_not_existing db name t).2.files = db.files ∧
    (add_if_not_existing db name t).2.fileContents = db.fileContents := by
  cases hc : cacheLookup name db.name_cache with
  | none => simp [add_if_not_existing, elementNew, hc]
  | some id => simp [add_if_not_existing, hc]

/-- C9: every file-record commit — the base `commit` (here reached through
`record_file_with`) and the disk-reading `commit_file` variant alike —
fails with the builder's uninitialized-field error, because the `language`
field of the `File` builder is never set; consequently no File row and no
file-content row is ever stored (although the file node itself has already
been interned).  The claimed `line_count` is therefore never written. -/
theorem record_file_never_stores :
    (∀ (db : DB) (path : Str) (mtime : Int) (content : Str) (indexed : Bool),
      ∃ db', record_file_with db path mtime content indexed
          = (.error (.Builder ("uninitialized field")), db') ∧
        db'.files = db.files ∧ db'.fileContents = db.fileContents) ∧
    (∀ (r : FileRecorderS) (db : DB) (p : Str) (m : Int) (c : Str),
      ∃ db', r.commit_file p m c db = (.error (.Builder ("uninitialized field")), db') ∧
        db'.files = db.files ∧ db'.fileContents = db.fileContents) := by
  have hmain : ∀ (db : DB) (path : Str) (mtime : Int) (content : Str) (indexed : Bool),
      ∃ db', record_file_with db path mtime content indexed
          = (.error (.Builder ("uninitialized field")), db') ∧
        db'.files = db.files ∧ db'.fileContents = db.fileContents := by
    intro db path mtime content indexed
    have hnew : NameHierarchy.new fileDelim [⟨none, some path, none⟩]
        = .ok ⟨fileDelim, [⟨none, some path, none⟩]⟩ := rfl
    have hser : (⟨fileDelim, [⟨none, some path, none⟩]⟩ : NameHierarchy).serialize_name
        = .ok (fileDelim ++ tmMark ++ (path ++ tsMark ++ tpMark)) := by
      unfold NameHierarchy.serialize_name NameHierarchy.serialize_range NameHierarchy.size
      simp [joinSep, serializeElement]
    refine ⟨(add_if_not_existing db
      (fileDelim ++ tmMark ++ (path ++ tsMark ++ tpMark)) .NodeFile).2, ?_, ?_, ?_⟩
    · unfold record_file_with
      simp only [hnew, hser, FileBuilderS.build]
    · exact (add_if_not_existing_files db _ .NodeFile).1
    · exact (add_if_not_existing_files db _ .NodeFile).2
  refine ⟨hmain, ?_⟩
  intro r db p m c
  unfold FileRecorderS.commit_file FileRecorderS.commit
  simp only
  exact hmain db p m c r.indexed
